import Mathlib

/-!
Verification of the CSC455 secure-voting project core:
the blockchain ledger (`blockchain_ledger.py`), the vote crypto layer
(`crypto_utils.py`) and the tally route (`app.py`).

Byte strings are modelled as `List Nat` (each entry < 256).  The AES-256
block-cipher primitive from PyCryptodome is modelled as an explicit pair of
keyed functions `aesE aesD : List Nat → List Nat → List Nat` with the inverse
and length-preservation laws as hypotheses; everything the repository itself
implements (CBC chaining, PKCS7 padding, base64 framing, SHA-256, JSON
canonical hashing, the ledger operations) is embedded directly.
-/

/-- 2^32, the modulus for SHA-256 word arithmetic. -/
def M32 : Nat := 4294967296

/-- Right rotation of a 32-bit word. -/
def rotr (n x : Nat) : Nat := ((x >>> n) ||| (x <<< (32 - n))) % M32

/-- SHA-256 big sigma 0. -/
def bsig0 (x : Nat) : Nat := (rotr 2 x) ^^^ (rotr 13 x) ^^^ (rotr 22 x)

/-- SHA-256 big sigma 1. -/
def bsig1 (x : Nat) : Nat := (rotr 6 x) ^^^ (rotr 11 x) ^^^ (rotr 25 x)

/-- SHA-256 small sigma 0. -/
def ssig0 (x : Nat) : Nat := (rotr 7 x) ^^^ (rotr 18 x) ^^^ (x >>> 3)

/-- SHA-256 small sigma 1. -/
def ssig1 (x : Nat) : Nat := (rotr 17 x) ^^^ (rotr 19 x) ^^^ (x >>> 10)

/-- SHA-256 choice function. -/
def chF (e f g : Nat) : Nat := (e &&& f) ^^^ ((e ^^^ (M32 - 1)) &&& g)

/-- SHA-256 majority function. -/
def majF (a b c : Nat) : Nat := (a &&& b) ^^^ (a &&& c) ^^^ (b &&& c)

/-- The 64 SHA-256 round constants. -/
def sha256K : List Nat :=
  [1116352408, 1899447441, 3049323471, 3921009573, 961987163, 1508970993,
   2453635748, 2870763221, 3624381080, 310598401, 607225278, 1426881987,
   1925078388, 2162078206, 2614888103, 3248222580, 3835390401, 4022224774,
   264347078, 604807628, 770255983, 1249150122, 1555081692, 1996064986,
   2554220882, 2821834349, 2952996808, 3210313671, 3336571891, 3584528711,
   113926993, 338241895, 666307205, 773529912, 1294757372, 1396182291,
   1695183700, 1986661051, 2177026350, 2456956037, 2730485921, 2820302411,
   3259730800, 3345764771, 3516065817, 3600352804, 4094571909, 275423344,
   430227734, 506948616, 659060556, 883997877, 958139571, 1322822218,
   1537002063, 1747873779, 1955562222, 2024104815, 2227730452, 2361852424,
   2428436474, 2756734187, 3204031479, 3329325298]

/-- The SHA-256 initial hash state. -/
def sha256H0 : List Nat :=
  [1779033703, 3144134277, 1013904242, 2773480762,
   1359893119, 2600822924, 528734635, 1541459225]

/-- Big-endian byte serialization of `n` on `k` bytes. -/
def beBytes : Nat → Nat → List Nat
  | 0, _ => []
  | k + 1, n => beBytes k (n / 256) ++ [n % 256]

/-- Groups 4 consecutive bytes into big-endian 32-bit words. -/
def beWords : List Nat → List Nat
  | a :: b :: c :: d :: rest => (((a * 256 + b) * 256 + c) * 256 + d) :: beWords rest
  | _ => []

/-- SHA-256 message padding: `0x80`, zeros, then the 64-bit big-endian bit length. -/
def sha256Pad (msg : List Nat) : List Nat :=
  msg ++ 0x80 :: List.replicate ((119 - msg.length % 64) % 64) 0 ++ beBytes 8 (msg.length * 8)

/-- Fuel-driven worker for `chunksOf` (structural recursion so the kernel can
evaluate it; the fuel is irrelevant once it covers the list length). -/
def chunksOfAux (n : Nat) : Nat → List Nat → List (List Nat)
  | 0, _ => []
  | _, [] => []
  | fuel + 1, a :: l => (a :: l).take n :: chunksOfAux n fuel ((a :: l).drop n)

/-- Splits a byte list into consecutive chunks of `n` bytes. -/
def chunksOf (n : Nat) (l : List Nat) : List (List Nat) :=
  chunksOfAux n l.length l

/-- Extends the 16-word message schedule by `n` further words. -/
def extendW : List Nat → Nat → List Nat
  | w, 0 => w
  | w, n + 1 =>
    let L := w.length
    extendW (w ++ [(w.getD (L - 16) 0 + ssig0 (w.getD (L - 15) 0) +
                    w.getD (L - 7) 0 + ssig1 (w.getD (L - 2) 0)) % M32]) n

/-- One SHA-256 round on the 8-word working state, consuming one `(k, w)` pair. -/
def sha256Round (st : List Nat) (kw : Nat × Nat) : List Nat :=
  match st with
  | [a, b, c, d, e, f, g, h] =>
    let t1 := (h + bsig1 e + chF e f g + kw.1 + kw.2) % M32
    let t2 := (bsig0 a + majF a b c) % M32
    [(t1 + t2) % M32, a, b, c, (d + t1) % M32, e, f, g]
  | _ => st

/-- SHA-256 compression of one 64-byte chunk into the hash state. -/
def sha256Compress (hs : List Nat) (chunk : List Nat) : List Nat :=
  let w := extendW (beWords chunk) 48
  let st := (sha256K.zip w).foldl sha256Round hs
  (hs.zip st).map (fun p => (p.1 + p.2) % M32)

/-- SHA-256 digest of a byte string, as 32 raw bytes (Python `digest()`). -/
def sha256Bytes (msg : List Nat) : List Nat :=
  (((chunksOf 64 (sha256Pad msg)).foldl sha256Compress sha256H0).map (beBytes 4)).flatten

/-- Lower-case hex character for a nibble. -/
def hexChar (n : Nat) : Char := ("0123456789abcdef".toList).getD n '0'

/-- Lower-case hex string of a byte list. -/
def bytesToHex (bs : List Nat) : String :=
  String.mk ((bs.map (fun b => [hexChar (b / 16), hexChar (b % 16)])).flatten)

/-- UTF-8 encoding of a single character. -/
def utf8Char (c : Char) : List Nat :=
  let n := c.toNat
  if n < 0x80 then [n]
  else if n < 0x800 then [0xC0 + n / 64, 0x80 + n % 64]
  else if n < 0x10000 then [0xE0 + n / 4096, 0x80 + n / 64 % 64, 0x80 + n % 64]
  else [0xF0 + n / 262144, 0x80 + n / 4096 % 64, 0x80 + n / 64 % 64, 0x80 + n % 64]

/-- UTF-8 encoding of a string, as Python `str.encode` yields. -/
def strBytes (s : String) : List Nat := (s.data.map utf8Char).flatten

/-- Hex SHA-256 digest of a string's UTF-8 encoding (Python `hexdigest()`). -/
def sha256Hex (s : String) : String := bytesToHex (sha256Bytes (strBytes s))

/-- Is this byte a UTF-8 continuation byte (`0x80..0xBF`)? -/
def isCont (b : Nat) : Prop := 0x80 ≤ b ∧ b < 0xC0

instance (b : Nat) : Decidable (isCont b) := by unfold isCont; infer_instance

/-- One step of strict UTF-8 decoding (Python `bytes.decode` semantics:
rejects stray continuations, overlongs, surrogates and out-of-range values):
decodes the scalar value led by byte `b`, returning it with the remaining
bytes. -/
def utf8DecOne (b : Nat) (rest : List Nat) : Option (Nat × List Nat) :=
  if b < 0x80 then some (b, rest)
  else if b < 0xC2 then none
  else if b < 0xE0 then
    match rest with
    | c1 :: rest2 =>
      if isCont c1 then some ((b - 0xC0) * 64 + (c1 - 0x80), rest2) else none
    | _ => none
  else if b < 0xF0 then
    match rest with
    | c1 :: c2 :: rest2 =>
      let v := (b - 0xE0) * 4096 + (c1 - 0x80) * 64 + (c2 - 0x80)
      if isCont c1 ∧ isCont c2 ∧ 0x800 ≤ v ∧ ¬(0xD800 ≤ v ∧ v < 0xE000) then some (v, rest2)
      else none
    | _ => none
  else if b < 0xF5 then
    match rest with
    | c1 :: c2 :: c3 :: rest2 =>
      let v := (b - 0xF0) * 262144 + (c1 - 0x80) * 4096 + (c2 - 0x80) * 64 + (c3 - 0x80)
      if isCont c1 ∧ isCont c2 ∧ isCont c3 ∧ 0x10000 ≤ v ∧ v < 0x110000 then some (v, rest2)
      else none
    | _ => none
  else none

/-- Fuel-driven strict UTF-8 decoding loop (the fuel is irrelevant once it
covers the byte count). -/
def utf8DecAux : Nat → List Nat → Option (List Char)
  | _, [] => some []
  | 0, _ :: _ => none
  | fuel + 1, b :: rest =>
    match utf8DecOne b rest with
    | none => none
    | some (v, rest2) => (utf8DecAux fuel rest2).map (fun cs => Char.ofNat v :: cs)

/-- Strict UTF-8 decoding of a byte string into characters. -/
def utf8Dec (bs : List Nat) : Option (List Char) := utf8DecAux bs.length bs

/-- UTF-8 decoding of a byte string into a string, when valid. -/
def utf8Decode (bs : List Nat) : Option String := (utf8Dec bs).map String.mk

/-- The standard base64 alphabet. -/
def b64Alphabet : List Char :=
  "ABCDEFGHIJKLMNOPQRSTUVWXYZabcdefghijklmnopqrstuvwxyz0123456789+/".toList

/-- Character for a 6-bit value. -/
def b64Char (n : Nat) : Char := b64Alphabet.getD n 'A'

/-- 6-bit value of a base64 character. -/
def b64Val (c : Char) : Nat := b64Alphabet.indexOf c

/-- Standard base64 encoding of a byte string, with `=` padding. -/
def b64EncodeBytes : List Nat → List Char
  | [] => []
  | [a] => [b64Char (a / 4), b64Char (a % 4 * 16), '=', '=']
  | [a, b] => [b64Char (a / 4), b64Char (a % 4 * 16 + b / 16), b64Char (b % 16 * 4), '=']
  | a :: b :: c :: rest =>
    b64Char (a / 4) :: b64Char (a % 4 * 16 + b / 16) :: b64Char (b % 16 * 4 + c / 64) ::
      b64Char (c % 64) :: b64EncodeBytes rest

/-- Base64 decoding of well-formed base64 text (4-character groups, `=`
padding allowed in the final group). -/
def b64DecodeChars : List Char → List Nat
  | c0 :: c1 :: c2 :: c3 :: rest =>
    if rest.isEmpty then
      if c3 = '=' then
        if c2 = '=' then [b64Val c0 * 4 + b64Val c1 / 16]
        else [b64Val c0 * 4 + b64Val c1 / 16, b64Val c1 % 16 * 16 + b64Val c2 / 4]
      else [b64Val c0 * 4 + b64Val c1 / 16, b64Val c1 % 16 * 16 + b64Val c2 / 4,
            b64Val c2 % 4 * 64 + b64Val c3]
    else
      (b64Val c0 * 4 + b64Val c1 / 16) :: (b64Val c1 % 16 * 16 + b64Val c2 / 4) ::
        (b64Val c2 % 4 * 64 + b64Val c3) :: b64DecodeChars rest
  | _ => []

/-- `base64.b64encode` then `decode('utf-8')`, as a string. -/
def b64Encode (bs : List Nat) : String := String.mk (b64EncodeBytes bs)

/-- `base64.b64decode` of an envelope string. -/
def b64Decode (s : String) : List Nat := b64DecodeChars s.data

/-- PKCS7 padding to the AES block size of 16 (`Crypto.Util.Padding.pad`). -/
def padPKCS7 (data : List Nat) : List Nat :=
  data ++ List.replicate (16 - data.length % 16) (16 - data.length % 16)

/-- PKCS7 unpadding (`Crypto.Util.Padding.unpad`): fails on any incorrect
padding, which is the only tamper signal AES-CBC offers. -/
def unpadPKCS7 (data : List Nat) : Option (List Nat) :=
  if data.length = 0 then none
  else if data.length % 16 ≠ 0 then none
  else
    let n := data.getLastD 0
    if n < 1 ∨ 16 < n ∨ data.length < n then none
    else if data.drop (data.length - n) ≠ List.replicate n n then none
    else some (data.take (data.length - n))

/-- Byte-wise xor of two byte strings. -/
def xorBytes (a b : List Nat) : List Nat := List.zipWith (fun x y => x ^^^ y) a b

/-- AES-CBC encryption chaining over 16-byte plaintext blocks, given the keyed
block-cipher forward permutation `E` and the previous ciphertext block
(initially the IV). -/
def cbcEnc (E : List Nat → List Nat) : List Nat → List (List Nat) → List (List Nat)
  | _, [] => []
  | prev, p :: ps =>
    let c := E (xorBytes p prev)
    c :: cbcEnc E c ps

/-- AES-CBC decryption chaining, given the keyed block-cipher inverse `D`. -/
def cbcDec (D : List Nat → List Nat) : List Nat → List (List Nat) → List (List Nat)
  | _, [] => []
  | prev, c :: cs => xorBytes (D c) prev :: cbcDec D c cs

/-- `VoteCrypto._generate_key`: the fixed AES-256 key, the SHA-256 digest of a
hardcoded constant string.  It involves no randomness and no per-instance
input. -/
def generate_key : List Nat := sha256Bytes (strBytes "secure_voting_system_2024_usa_democracy")

/-- A `VoteCrypto` instance holds only its symmetric key. -/
structure VoteCrypto where
  key : List Nat
deriving DecidableEq, Repr

/-- `VoteCrypto.__init__`: every construction yields the same fixed key. -/
def VoteCrypto.init (_u : Unit) : VoteCrypto := ⟨generate_key⟩

/-- `VoteCrypto.encrypt_vote`, with the PyCryptodome AES block primitive
abstracted as the keyed function `aesE` and the random IV made an explicit
argument: UTF-8 encode, PKCS7 pad, AES-CBC encrypt, emit `base64(iv ∥ ct)`. -/
def encrypt_vote (aesE : List Nat → List Nat → List Nat) (key : List Nat)
    (vote_data : String) (iv : List Nat) : String :=
  b64Encode (iv ++ (cbcEnc (aesE key) iv (chunksOf 16 (padPKCS7 (strBytes vote_data)))).flatten)

/-- `VoteCrypto.decrypt_vote`: base64-decode, split off the 16-byte IV,
AES-CBC decrypt, PKCS7 unpad, UTF-8 decode; any failure is the generic
decryption error (`none`). -/
def decrypt_vote (aesD : List Nat → List Nat → List Nat) (key : List Nat)
    (encrypted_data : String) : Option String :=
  match unpadPKCS7 ((cbcDec (aesD key) ((b64Decode encrypted_data).take 16)
      (chunksOf 16 ((b64Decode encrypted_data).drop 16))).flatten) with
  | none => none
  | some data => utf8Decode data

/-- A concrete keyed involution standing in for the AES block permutation in
closed witnesses: xor every byte with the first key byte. -/
def xorCipher (key : List Nat) (block : List Nat) : List Nat :=
  block.map (fun b => b ^^^ key.headD 0)

/-- A pending vote transaction (`Blockchain.new_vote_transaction` record).
`submission_time` holds the JSON rendering of the Python float timestamp. -/
structure VoteTx where
  encrypted_vote : String
  voter_hash : String
  submission_time : String
deriving DecidableEq, Repr

/-- A block of the ledger, with the timestamp kept as its JSON rendering. -/
structure Block where
  index : Nat
  timestamp : String
  votes : List VoteTx
  proof : Nat
  previous_hash : String
deriving DecidableEq, Repr

/-- Four lower-case hex digits of a 16-bit value. -/
def hex4 (n : Nat) : String :=
  String.mk [hexChar (n / 4096 % 16), hexChar (n / 256 % 16), hexChar (n / 16 % 16), hexChar (n % 16)]

/-- Python `json.dumps` escaping of one character (default `ensure_ascii`). -/
def jsonEscapeChar (c : Char) : String :=
  if c = '\x22' then "\\\x22"
  else if c = '\\' then "\\\\"
  else if c = '\n' then "\\n"
  else if c = '\t' then "\\t"
  else if c = '\r' then "\\r"
  else if c = '\x08' then "\\b"
  else if c = '\x0c' then "\\f"
  else if c.toNat < 0x20 then "\\u" ++ hex4 c.toNat
  else if c.toNat < 0x7f then String.mk [c]
  else if c.toNat < 0x10000 then "\\u" ++ hex4 c.toNat
  else "\\u" ++ hex4 (0xd800 + (c.toNat - 0x10000) / 1024) ++
       "\\u" ++ hex4 (0xdc00 + (c.toNat - 0x10000) % 1024)

/-- Python `json.dumps` rendering of a string value. -/
def jsonString (s : String) : String :=
  "\x22" ++ String.join (s.data.map (fun c => jsonEscapeChar c)) ++ "\x22"

/-- Join with a separator (`json.dumps` uses item separator `", "`). -/
def joinSep (sep : String) : List String → String
  | [] => ""
  | [x] => x
  | x :: xs => x ++ sep ++ joinSep sep xs

/-- `json.dumps(vote, sort_keys=True)`: keys in sorted order
`encrypted_vote`, `submission_time`, `voter_hash`. -/
def voteTxJson (v : VoteTx) : String :=
  "\x7b\x22encrypted_vote\x22: " ++ jsonString v.encrypted_vote ++
  ", \x22submission_time\x22: " ++ v.submission_time ++
  ", \x22voter_hash\x22: " ++ jsonString v.voter_hash ++ "\x7d"

/-- `json.dumps(block, sort_keys=True)`: keys in sorted order
`index`, `previous_hash`, `proof`, `timestamp`, `votes`. -/
def blockJson (b : Block) : String :=
  "\x7b\x22index\x22: " ++ toString b.index ++
  ", \x22previous_hash\x22: " ++ jsonString b.previous_hash ++
  ", \x22proof\x22: " ++ toString b.proof ++
  ", \x22timestamp\x22: " ++ b.timestamp ++
  ", \x22votes\x22: [" ++ joinSep ", " (b.votes.map voteTxJson) ++ "]\x7d"

/-- `Blockchain.hash`: SHA-256 hex digest of the key-sorted JSON dump. -/
def hashBlock (b : Block) : String := sha256Hex (blockJson b)

/-- The proof-of-vote difficulty target: 4 leading hex zeros. -/
def DIFFICULTY_TARGET : String := "0000"

/-- `Blockchain.valid_proof`: SHA-256 of the concatenated decimal
representations must start with the difficulty target. -/
def valid_proof (last_proof proof : Nat) : Bool :=
  (sha256Hex (toString last_proof ++ toString proof)).take DIFFICULTY_TARGET.length
    == DIFFICULTY_TARGET

/-- The search loop of `Blockchain.proof_of_vote`, made total with explicit
fuel (the Python loop is unbounded; `none` means the bound was hit). -/
def povSearch (last_proof : Nat) : Nat → Nat → Option Nat
  | 0, _ => none
  | fuel + 1, p => if valid_proof last_proof p then some p else povSearch last_proof fuel (p + 1)

/-- `Blockchain.proof_of_vote`: increasing search from 0. -/
def proof_of_vote (fuel last_proof : Nat) : Option Nat := povSearch last_proof fuel 0

/-- The mutable state of a `Blockchain` instance. -/
structure Ledger where
  chain : List Block
  current_transactions : List VoteTx
deriving DecidableEq, Repr

/-- `Blockchain.new_block` (timestamp explicit): build the block from the
pending transactions, clear them, append.  A `none`/empty `previous_hash`
falls back to hashing the last block (failing on an empty chain, where the
Python code would raise `IndexError`). -/
def new_block (st : Ledger) (proof : Nat) (previous_hash : Option String) (ts : String) :
    Option (Ledger × Block) :=
  match (match previous_hash with
         | some s => if s = "" then (st.chain.getLast?).map hashBlock else some s
         | none => (st.chain.getLast?).map hashBlock) with
  | none => none
  | some ph =>
    some ({ chain := st.chain ++
              [{ index := st.chain.length + 1, timestamp := ts,
                 votes := st.current_transactions, proof := proof, previous_hash := ph }],
            current_transactions := [] },
          { index := st.chain.length + 1, timestamp := ts,
            votes := st.current_transactions, proof := proof, previous_hash := ph })

/-- `Blockchain.__init__`: start empty, then create the genesis block via
`new_block(proof=100, previous_hash='1')`. -/
def initLedger (ts : String) : Ledger :=
  match new_block { chain := [], current_transactions := [] } 100 (some "1") ts with
  | some (st, _) => st
  | none => { chain := [], current_transactions := [] }

/-- `Blockchain.new_vote_transaction` (timestamp explicit): append the record
to the pending list and return the updated state with `last_block.index + 1`. -/
def new_vote_transaction (st : Ledger) (encrypted_vote voter_hash ts : String) :
    Option (Ledger × Nat) :=
  match st.chain.getLast? with
  | none => none
  | some lb =>
    some ({ chain := st.chain,
            current_transactions := st.current_transactions ++
              [{ encrypted_vote := encrypted_vote, voter_hash := voter_hash,
                 submission_time := ts }] },
          lb.index + 1)

/-- The body of `Blockchain.is_chain_valid`'s while loop, from a previous
block: hash link first, then proof check, short-circuiting on failure. -/
def chainValidFrom : Block → List Block → Bool
  | _, [] => true
  | prev, b :: rest =>
    if b.previous_hash != hashBlock prev then false
    else if !(valid_proof prev.proof b.proof) then false
    else chainValidFrom b rest

/-- `Blockchain.is_chain_valid`: checks every adjacent pair; chains of length
at most 1 are valid. -/
def is_chain_valid : List Block → Bool
  | [] => true
  | b :: rest => chainValidFrom b rest

/-- The two ledger operations the application performs (`app.py` `vote`
route): submit a vote transaction, or seal a block by mining a proof from the
last block's proof and chaining on its hash.  Timestamps and the mining fuel
bound are explicit inputs. -/
inductive LedgerOp where
  | submit (encrypted_vote voter_hash ts : String)
  | sealOp (fuel : Nat) (ts : String)
deriving DecidableEq, Repr

/-- One application step on the ledger (`none` when mining hits the fuel
bound or the chain is unexpectedly empty). -/
def applyOp (st : Ledger) : LedgerOp → Option Ledger
  | .submit ev vh ts => (new_vote_transaction st ev vh ts).map Prod.fst
  | .sealOp fuel ts =>
    match st.chain.getLast? with
    | none => none
    | some last =>
      match proof_of_vote fuel last.proof with
      | none => none
      | some proof => (new_block st proof (some (hashBlock last)) ts).map Prod.fst

/-- Run a sequence of ledger operations. -/
def runOps (st : Ledger) : List LedgerOp → Option Ledger
  | [] => some st
  | op :: ops =>
    match applyOp st op with
    | none => none
    | some st' => runOps st' ops

/-- The candidate set of `app.py`. -/
def VOTING_OPTIONS : List String :=
  ["Candidate A - Democratic Party", "Candidate B - Republican Party",
   "Candidate C - Independent", "Abstain"]

/-- Increment one candidate's counter in the ordered counts list. -/
def bumpCount : List (String × Nat) → String → List (String × Nat)
  | [], _ => []
  | (c, n) :: rest, cand =>
    if c = cand then (c, n + 1) :: rest else (c, n) :: bumpCount rest cand

/-- Processing of one vote record by the `results` route: skip empty
ciphertext, skip decryption failures, skip malformed payloads (the JSON
`candidate` extraction is the parameter `parse`), count only known
candidates. -/
def tallyEntry (aesD : List Nat → List Nat → List Nat) (key : List Nat)
    (parse : String → Option String)
    (acc : List (String × Nat) × Nat) (e : VoteTx) : List (String × Nat) × Nat :=
  if e.encrypted_vote = "" then acc
  else
    match decrypt_vote aesD key e.encrypted_vote with
    | none => acc
    | some pt =>
      match parse pt with
      | none => acc
      | some cand =>
        if (acc.1.map Prod.fst).contains cand then (bumpCount acc.1 cand, acc.2 + 1) else acc

/-- The tally loop of the `results` route: skip the genesis block, walk every
vote record in order, starting from zero counts for `VOTING_OPTIONS`. -/
def tallyChain (aesD : List Nat → List Nat → List Nat) (key : List Nat)
    (parse : String → Option String) (chain : List Block) : List (String × Nat) × Nat :=
  ((chain.drop 1).flatMap (fun b => b.votes)).foldl (tallyEntry aesD key parse)
    (VOTING_OPTIONS.map (fun c => (c, 0)), 0)

/-- Round-half-even to one decimal over exact rationals (the idealization of
Python `round(x, 1)`; the route computes in binary floating point). -/
def roundTo1 (q : ℚ) : ℚ :=
  let n : ℤ := ⌊q * 10⌋
  let f : ℚ := q * 10 - (n : ℚ)
  let r : ℤ :=
    if f < 1/2 then n
    else if 1/2 < f then n + 1
    else if n % 2 = 0 then n else n + 1
  (r : ℚ) / 10

/-- The percentage map of the `results` route: `count / total * 100` rounded
to one decimal when `total > 0`, otherwise all zeros. -/
def vote_percentages (tally : List (String × Nat) × Nat) : List (String × ℚ) :=
  if tally.2 > 0 then
    tally.1.map (fun p => (p.1, roundTo1 ((p.2 : ℚ) / (tally.2 : ℚ) * 100)))
  else
    tally.1.map (fun p => (p.1, 0))

/-- One link check of `is_chain_valid` as a boolean: the hash chain condition
and the proof condition for an adjacent block pair. -/
def linkOK (prev b : Block) : Bool :=
  (b.previous_hash == hashBlock prev) && valid_proof prev.proof b.proof

/-- Specification-side view of the tally loop's filtering: the candidate a
vote record is counted for, if any (`none` when the ciphertext is empty, the
decryption fails, the payload is malformed, or the candidate is unknown). -/
def countedAs (aesD : List Nat → List Nat → List Nat) (key : List Nat)
    (parse : String → Option String) (e : VoteTx) : Option String :=
  if e.encrypted_vote = "" then none
  else
    match decrypt_vote aesD key e.encrypted_vote with
    | none => none
    | some pt =>
      match parse pt with
      | none => none
      | some cand => if VOTING_OPTIONS.contains cand then some cand else none

/-- A ledger state is reachable when some operation sequence from a freshly
constructed ledger produces it. -/
def Reachable (st : Ledger) : Prop :=
  ∃ ts ops, runOps (initLedger ts) ops = some st

/-- Concrete genesis block (timestamp `1700000000.0`), as `initLedger` builds it. -/
def genesisB : Block :=
  { index := 1, timestamp := "1700000000.0", votes := [], proof := 100, previous_hash := "1" }

/-- Concrete second block: proof `35293` is the least valid proof after the
genesis proof `100`, and `previous_hash` is the canonical hash of `genesisB`. -/
def blockB2 : Block :=
  { index := 2, timestamp := "1700000001.0", votes := [], proof := 35293,
    previous_hash := "c2e48a8d817af9609ba9cc865af2341e15cf049d56b3cbd320ed7b3038d738a4" }

/-- Concrete third block: proof `35089` is valid after `35293`, and
`previous_hash` is the canonical hash of `blockB2`. -/
def blockB3 : Block :=
  { index := 3, timestamp := "1700000002.0", votes := [], proof := 35089,
    previous_hash := "ca9ee0da7cc01cc35d3251816800c691b141036d5db637d605cac7d04ec5464b" }

/-- All entries are bytes. -/
def isBytes (l : List Nat) : Prop := ∀ x ∈ l, x < 256

/-- All characters are ASCII. -/
def isAscii (s : String) : Prop := ∀ c ∈ s.data, c.toNat < 0x80

instance (l : List Nat) : Decidable (isBytes l) :=
  inferInstanceAs (Decidable (∀ x ∈ l, x < 256))

instance (s : String) : Decidable (isAscii s) :=
  inferInstanceAs (Decidable (∀ c ∈ s.data, c.toNat < 0x80))

/-- Concrete two-block chain for tally evaluation: one decryptable vote for
"Abstain" (xor stand-in cipher, key byte `0xAA`), one empty ciphertext and
one corrupted envelope. -/
def tallyWitnessChain : List Block :=
  [genesisB,
   { index := 2, timestamp := "1700000001.0",
     votes := [{ encrypted_vote := encrypt_vote xorCipher [0xAA] "Abstain" (List.range 16),
                 voter_hash := "vh1", submission_time := "1700000000.2" },
               { encrypted_vote := "", voter_hash := "vh2",
                 submission_time := "1700000000.3" },
               { encrypted_vote := "!!!!", voter_hash := "vh3",
                 submission_time := "1700000000.4" }],
     proof := 35293,
     previous_hash := "c2e48a8d817af9609ba9cc865af2341e15cf049d56b3cbd320ed7b3038d738a4" }]

/-- Concrete ledger state with one pending transaction, used to exercise the
Seal step. -/
def stC8 : Ledger :=
  { chain := [genesisB],
    current_transactions := [{ encrypted_vote := "env1", voter_hash := "vh1",
                               submission_time := "t1" }] }

/-- The block the Seal step builds from `stC8` with proof `7` and previous
hash `"h"`. -/
def blkC8 : Block :=
  { index := 2, timestamp := "t2",
    votes := [{ encrypted_vote := "env1", voter_hash := "vh1", submission_time := "t1" }],
    proof := 7, previous_hash := "h" }

/-- The ledger state the Seal step leaves from `stC8`. -/
def stC8sealed : Ledger := { chain := [genesisB, blkC8], current_transactions := [] }

/-- A freshly constructed ledger state (reachable by the empty run). -/
def stC9 : Ledger := { chain := [genesisB], current_transactions := [] }

/-- The ledger state after submitting one vote record to `stC9`. -/
def stC9next : Ledger :=
  { chain := [genesisB],
    current_transactions := [{ encrypted_vote := "env", voter_hash := "vh",
                               submission_time := "t1" }] }

theorem chunksOfAux_nil (n : Nat) : ∀ f, chunksOfAux n f [] = []
  | 0 => rfl
  | _ + 1 => rfl

theorem chunksOfAux_fuel (n : Nat) (hn : 0 < n) :
    ∀ f1 f2 l, l.length ≤ f1 → l.length ≤ f2 → chunksOfAux n f1 l = chunksOfAux n f2 l
  | 0, f2, l, h1, _ => by
    have : l = [] := List.length_eq_zero.mp (Nat.le_zero.mp h1)
    subst this
    rw [chunksOfAux_nil, chunksOfAux_nil]
  | _ + 1, f2, [], _, _ => by rw [chunksOfAux_nil, chunksOfAux_nil]
  | _ + 1, 0, _ :: _, _, h2 => by simp at h2
  | f1 + 1, f2 + 1, a :: l, h1, h2 => by
    simp only [List.length_cons] at h1 h2
    simp only [chunksOfAux]
    congr 1
    exact chunksOfAux_fuel n hn f1 f2 ((a :: l).drop n)
      (by simp only [List.length_drop, List.length_cons]; omega)
      (by simp only [List.length_drop, List.length_cons]; omega)

theorem chunksOf_cons (n : Nat) (hn : 0 < n) (l : List Nat) (hl : l ≠ []) :
    chunksOf n l = l.take n :: chunksOf n (l.drop n) := by
  cases l with
  | nil => exact absurd rfl hl
  | cons a t =>
    show chunksOfAux n (t.length + 1) (a :: t) = _
    simp only [chunksOfAux]
    congr 1
    exact chunksOfAux_fuel n hn t.length ((a :: t).drop n).length ((a :: t).drop n)
      (by simp only [List.length_drop, List.length_cons]; omega) le_rfl

theorem chunksOf_flatten (n : Nat) (hn : 0 < n) : (l : List Nat) → (chunksOf n l).flatten = l
  | [] => rfl
  | a :: t => by
    rw [chunksOf_cons n hn (a :: t) (by simp), List.flatten_cons,
      chunksOf_flatten n hn ((a :: t).drop n)]
    exact List.take_append_drop n (a :: t)
termination_by l => l.length
decreasing_by simp only [List.length_drop, List.length_cons]; omega

theorem chunksOf_append (n : Nat) (hn : 0 < n) (b rest : List Nat) (hb : b.length = n) :
    chunksOf n (b ++ rest) = b :: chunksOf n rest := by
  rw [chunksOf_cons n hn (b ++ rest)
    (by cases b with | nil => simp at hb; omega | cons x xs => simp)]
  subst hb
  rw [List.take_left, List.drop_left]

theorem chunksOf_blocks (n : Nat) (hn : 0 < n) :
    ∀ bs : List (List Nat), (∀ b ∈ bs, b.length = n) → chunksOf n bs.flatten = bs
  | [], _ => rfl
  | b :: bs, h => by
    rw [List.flatten_cons, chunksOf_append n hn b bs.flatten (h b (by simp)),
      chunksOf_blocks n hn bs (fun x hx => h x (by simp [hx]))]

theorem xorBytes_cancel : ∀ (p q : List Nat), p.length ≤ q.length →
    xorBytes (xorBytes p q) q = p
  | [], _, _ => rfl
  | _ :: _, [], h => by simp at h
  | x :: p, y :: q, h => by
    simp only [xorBytes, List.zipWith_cons_cons]
    rw [Nat.xor_cancel_right]
    exact congrArg _ (xorBytes_cancel p q (by simpa using h))

theorem xorBytes_length (a b : List Nat) : (xorBytes a b).length = min a.length b.length :=
  List.length_zipWith _ a b

theorem xorBytes_bytes : ∀ (a b : List Nat), isBytes a → isBytes b → isBytes (xorBytes a b)
  | [], _, _, _ => by intro x hx; simp [xorBytes] at hx
  | _ :: _, [], _, _ => by intro x hx; simp [xorBytes] at hx
  | x :: p, y :: q, ha, hb => by
    intro z hz
    simp only [xorBytes, List.zipWith_cons_cons, List.mem_cons] at hz
    rcases hz with rfl | hz
    · exact Nat.xor_lt_two_pow (n := 8) (ha x (by simp)) (hb y (by simp))
    · exact xorBytes_bytes p q (fun u hu => ha u (by simp [hu])) (fun u hu => hb u (by simp [hu])) z hz

theorem b64Val_b64Char : ∀ v, v < 64 → b64Val (b64Char v) = v := by decide

theorem b64Char_ne_pad : ∀ v, v < 64 → b64Char v ≠ '=' := by decide

theorem b64EncodeBytes_ne_nil (a : Nat) (l : List Nat) : b64EncodeBytes (a :: l) ≠ [] := by
  cases l with
  | nil => simp [b64EncodeBytes]
  | cons b t => cases t with
    | nil => simp [b64EncodeBytes]
    | cons c r => simp [b64EncodeBytes]

theorem b64DecodeChars_final2 (c0 c1 : Char) :
    b64DecodeChars [c0, c1, '=', '='] = [b64Val c0 * 4 + b64Val c1 / 16] := rfl

theorem b64DecodeChars_final3 (c0 c1 c2 : Char) (h2 : c2 ≠ '=') :
    b64DecodeChars [c0, c1, c2, '='] =
      [b64Val c0 * 4 + b64Val c1 / 16, b64Val c1 % 16 * 16 + b64Val c2 / 4] := by
  simp [b64DecodeChars, h2]

theorem b64DecodeChars_final4 (c0 c1 c2 c3 : Char) (h3 : c3 ≠ '=') :
    b64DecodeChars [c0, c1, c2, c3] =
      [b64Val c0 * 4 + b64Val c1 / 16, b64Val c1 % 16 * 16 + b64Val c2 / 4,
       b64Val c2 % 4 * 64 + b64Val c3] := by
  simp [b64DecodeChars, h3]

theorem b64DecodeChars_cons (c0 c1 c2 c3 : Char) (rest : List Char) (hr : rest ≠ []) :
    b64DecodeChars (c0 :: c1 :: c2 :: c3 :: rest) =
      (b64Val c0 * 4 + b64Val c1 / 16) :: (b64Val c1 % 16 * 16 + b64Val c2 / 4) ::
        (b64Val c2 % 4 * 64 + b64Val c3) :: b64DecodeChars rest := by
  simp [b64DecodeChars, hr]

theorem b64_roundtrip : ∀ bs : List Nat, isBytes bs → b64DecodeChars (b64EncodeBytes bs) = bs
  | [], _ => rfl
  | [a], h => by
    have ha : a < 256 := h a (by simp)
    show b64DecodeChars [b64Char (a / 4), b64Char (a % 4 * 16), '=', '='] = [a]
    rw [b64DecodeChars_final2, b64Val_b64Char _ (by omega), b64Val_b64Char _ (by omega)]
    simp only [List.cons.injEq, and_true]
    omega
  | [a, b], h => by
    have ha : a < 256 := h a (by simp)
    have hb : b < 256 := h b (by simp)
    show b64DecodeChars
      [b64Char (a / 4), b64Char (a % 4 * 16 + b / 16), b64Char (b % 16 * 4), '='] = [a, b]
    rw [b64DecodeChars_final3 _ _ _ (b64Char_ne_pad _ (by omega)),
      b64Val_b64Char _ (by omega), b64Val_b64Char _ (by omega), b64Val_b64Char _ (by omega)]
    simp only [List.cons.injEq, and_true]
    exact ⟨by omega, by omega⟩
  | a :: b :: c :: rest, h => by
    have ha : a < 256 := h a (by simp)
    have hb : b < 256 := h b (by simp)
    have hc : c < 256 := h c (by simp)
    have hrest : isBytes rest := fun x hx => h x (by simp [hx])
    cases rest with
    | nil =>
      show b64DecodeChars [b64Char (a / 4), b64Char (a % 4 * 16 + b / 16),
        b64Char (b % 16 * 4 + c / 64), b64Char (c % 64)] = [a, b, c]
      rw [b64DecodeChars_final4 _ _ _ _ (b64Char_ne_pad _ (by omega)),
        b64Val_b64Char _ (by omega), b64Val_b64Char _ (by omega),
        b64Val_b64Char _ (by omega), b64Val_b64Char _ (by omega)]
      simp only [List.cons.injEq, and_true]
      refine ⟨by omega, by omega, by omega⟩
    | cons r rs =>
      show b64DecodeChars (b64Char (a / 4) :: b64Char (a % 4 * 16 + b / 16) ::
        b64Char (b % 16 * 4 + c / 64) :: b64Char (c % 64) :: b64EncodeBytes (r :: rs)) = _
      rw [b64DecodeChars_cons _ _ _ _ _ (b64EncodeBytes_ne_nil r rs),
        b64Val_b64Char _ (by omega), b64Val_b64Char _ (by omega),
        b64Val_b64Char _ (by omega), b64Val_b64Char _ (by omega),
        b64_roundtrip (r :: rs) hrest]
      simp only [List.cons.injEq, and_true]
      refine ⟨by omega, by omega, by omega⟩

theorem b64Decode_b64Encode (bs : List Nat) (h : isBytes bs) : b64Decode (b64Encode bs) = bs := by
  show b64DecodeChars (String.mk (b64EncodeBytes bs)).data = bs
  rw [show (String.mk (b64EncodeBytes bs)).data = b64EncodeBytes bs from rfl]
  exact b64_roundtrip bs h

theorem getLastD_replicate (v : Nat) : ∀ k, 0 < k → ∀ d, (List.replicate k v).getLastD d = v
  | 0, hk => by omega
  | 1, _ => fun d => rfl
  | k + 2, _ => fun d => by
    rw [List.replicate_succ, List.getLastD_cons]
    exact getLastD_replicate v (k + 1) (by omega) v

theorem getLastD_append (xs : List Nat) : ∀ ys d, ys ≠ [] → (xs ++ ys).getLastD d = ys.getLastD d := by
  induction xs with
  | nil => intro ys d _; rfl
  | cons x xs ih =>
    intro ys d hys
    rw [List.cons_append, List.getLastD_cons, ih ys x hys]
    cases ys with
    | nil => exact absurd rfl hys
    | cons y t => rw [List.getLastD_cons, List.getLastD_cons]

theorem unpad_append_replicate (xs : List Nat) (n : Nat) (h1 : 1 ≤ n) (h2 : n ≤ 16)
    (h3 : (xs.length + n) % 16 = 0) :
    unpadPKCS7 (xs ++ List.replicate n n) = some xs := by
  unfold unpadPKCS7
  rw [if_neg (by simp only [List.length_append, List.length_replicate]; omega),
    if_neg (by simp only [List.length_append, List.length_replicate]; omega)]
  simp only [getLastD_append xs (List.replicate n n) 0
      (by cases n with | zero => omega | succ m => simp [List.replicate_succ]),
    getLastD_replicate n n h1 0, List.length_append, List.length_replicate]
  rw [if_neg (by omega)]
  have hdrop : (xs ++ List.replicate n n).drop (xs.length + n - n) = List.replicate n n := by
    have : xs.length + n - n = xs.length := by omega
    rw [this, List.drop_left]
  rw [if_neg (by simp [hdrop])]
  have htake : (xs ++ List.replicate n n).take (xs.length + n - n) = xs := by
    have : xs.length + n - n = xs.length := by omega
    rw [this, List.take_left]
  rw [htake]

theorem unpad_pad (data : List Nat) : unpadPKCS7 (padPKCS7 data) = some data := by
  unfold padPKCS7
  exact unpad_append_replicate data (16 - data.length % 16) (by omega) (by omega) (by omega)

theorem padPKCS7_length (data : List Nat) :
    (padPKCS7 data).length = data.length + (16 - data.length % 16) := by
  simp [padPKCS7]

theorem padPKCS7_mod (data : List Nat) : (padPKCS7 data).length % 16 = 0 := by
  rw [padPKCS7_length]; omega

theorem padPKCS7_bytes (data : List Nat) (h : isBytes data) : isBytes (padPKCS7 data) := by
  intro x hx
  rcases List.mem_append.mp hx with hx | hx
  · exact h x hx
  · have := List.eq_of_mem_replicate hx
    omega

theorem char_toNat_lt (c : Char) : c.toNat < 0x110000 := by
  rcases c.valid with h | ⟨_, h2⟩ <;> simp [Char.toNat] <;> omega

theorem char_not_surrogate (c : Char) : ¬(0xD800 ≤ c.toNat ∧ c.toNat < 0xE000) := by
  rcases c.valid with h | ⟨h1, _⟩ <;> simp [Char.toNat] at * <;> omega

theorem toNat_ofNat_valid (n : Nat) (h : n.isValidChar) : (Char.ofNat n).toNat = n := by
  rw [Char.ofNat, dif_pos h]; rfl

theorem utf8Char_bytes (c : Char) : isBytes (utf8Char c) := by
  intro x hx
  have hv := char_toNat_lt c
  by_cases h1 : c.toNat < 0x80
  · simp [utf8Char, h1] at hx; omega
  · by_cases h2 : c.toNat < 0x800
    · simp [utf8Char, h1, h2] at hx; rcases hx with rfl | rfl <;> omega
    · by_cases h3 : c.toNat < 0x10000
      · simp [utf8Char, h1, h2, h3] at hx; rcases hx with rfl | rfl | rfl <;> omega
      · simp [utf8Char, h1, h2, h3] at hx; rcases hx with rfl | rfl | rfl | rfl <;> omega

theorem strBytes_bytes (s : String) : isBytes (strBytes s) := by
  intro x hx
  simp only [strBytes, List.mem_flatten, List.mem_map] at hx
  obtain ⟨l, ⟨c, _, rfl⟩, hxl⟩ := hx
  exact utf8Char_bytes c x hxl


theorem utf8DecOne_consumed (b : Nat) (rest : List Nat) (v : Nat) (rest2 : List Nat)
    (h : utf8DecOne b rest = some (v, rest2)) : rest2.length ≤ rest.length := by
  unfold utf8DecOne at h
  repeat' split at h
  all_goals simp_all
  all_goals omega

theorem utf8DecAux_fuel : ∀ f1 f2 l, l.length ≤ f1 → l.length ≤ f2 →
    utf8DecAux f1 l = utf8DecAux f2 l
  | f1, f2, [], _, _ => by cases f1 <;> cases f2 <;> rfl
  | 0, _, _ :: _, h1, _ => by simp at h1
  | _ + 1, 0, _ :: _, _, h2 => by simp at h2
  | f1 + 1, f2 + 1, b :: l, h1, h2 => by
    simp only [List.length_cons] at h1 h2
    simp only [utf8DecAux]
    cases hone : utf8DecOne b l with
    | none => rfl
    | some p =>
      obtain ⟨v, rest2⟩ := p
      have hc := utf8DecOne_consumed b l v rest2 hone
      simp only []
      congr 1
      exact utf8DecAux_fuel f1 f2 rest2 (by omega) (by omega)

theorem utf8Dec_step (b : Nat) (rest : List Nat) (v : Nat) (rest2 : List Nat)
    (h : utf8DecOne b rest = some (v, rest2)) :
    utf8Dec (b :: rest) = (utf8Dec rest2).map (fun cs => Char.ofNat v :: cs) := by
  have hc := utf8DecOne_consumed b rest v rest2 h
  show utf8DecAux (b :: rest).length (b :: rest) = _
  simp only [List.length_cons, utf8DecAux]
  rw [h]
  simp only []
  congr 1
  exact utf8DecAux_fuel rest.length rest2.length rest2 hc le_rfl

theorem utf8DecOne_case1 (n : Nat) (h : n < 0x80) (rest : List Nat) :
    utf8DecOne n rest = some (n, rest) := by
  unfold utf8DecOne
  rw [if_pos h]

theorem utf8DecOne_case2 (n : Nat) (h1 : 0x80 ≤ n) (h2 : n < 0x800) (rest : List Nat) :
    utf8DecOne (0xC0 + n / 64) ((0x80 + n % 64) :: rest) = some (n, rest) := by
  unfold utf8DecOne
  rw [if_neg (by omega), if_neg (by omega), if_pos (by omega)]
  show (if isCont (0x80 + n % 64) then
    some ((0xC0 + n / 64 - 0xC0) * 64 + (0x80 + n % 64 - 0x80), rest) else none) = _
  rw [if_pos (show isCont (0x80 + n % 64) from ⟨by omega, by omega⟩)]
  simp only [Option.some.injEq, Prod.mk.injEq, and_true]
  omega

theorem utf8DecOne_case3 (n : Nat) (h1 : 0x800 ≤ n) (h2 : n < 0x10000)
    (hs : ¬(0xD800 ≤ n ∧ n < 0xE000)) (rest : List Nat) :
    utf8DecOne (0xE0 + n / 4096) ((0x80 + n / 64 % 64) :: (0x80 + n % 64) :: rest) =
      some (n, rest) := by
  unfold utf8DecOne
  rw [if_neg (by omega), if_neg (by omega), if_neg (by omega), if_pos (by omega)]
  show (if isCont (0x80 + n / 64 % 64) ∧ isCont (0x80 + n % 64) ∧
      0x800 ≤ (0xE0 + n / 4096 - 0xE0) * 4096 + (0x80 + n / 64 % 64 - 0x80) * 64 +
        (0x80 + n % 64 - 0x80) ∧
      ¬(0xD800 ≤ (0xE0 + n / 4096 - 0xE0) * 4096 + (0x80 + n / 64 % 64 - 0x80) * 64 +
          (0x80 + n % 64 - 0x80) ∧
        (0xE0 + n / 4096 - 0xE0) * 4096 + (0x80 + n / 64 % 64 - 0x80) * 64 +
          (0x80 + n % 64 - 0x80) < 0xE000) then
    some ((0xE0 + n / 4096 - 0xE0) * 4096 + (0x80 + n / 64 % 64 - 0x80) * 64 +
      (0x80 + n % 64 - 0x80), rest) else none) = _
  rw [show (0xE0 + n / 4096 - 0xE0) * 4096 + (0x80 + n / 64 % 64 - 0x80) * 64 +
      (0x80 + n % 64 - 0x80) = n from by omega]
  rw [if_pos ⟨⟨by omega, by omega⟩, ⟨by omega, by omega⟩, h1, hs⟩]

theorem utf8DecOne_case4 (n : Nat) (h1 : 0x10000 ≤ n) (h2 : n < 0x110000) (rest : List Nat) :
    utf8DecOne (0xF0 + n / 262144)
      ((0x80 + n / 4096 % 64) :: (0x80 + n / 64 % 64) :: (0x80 + n % 64) :: rest) =
      some (n, rest) := by
  unfold utf8DecOne
  rw [if_neg (by omega), if_neg (by omega), if_neg (by omega), if_neg (by omega),
    if_pos (by omega)]
  show (if isCont (0x80 + n / 4096 % 64) ∧ isCont (0x80 + n / 64 % 64) ∧
      isCont (0x80 + n % 64) ∧
      0x10000 ≤ (0xF0 + n / 262144 - 0xF0) * 262144 + (0x80 + n / 4096 % 64 - 0x80) * 4096 +
        (0x80 + n / 64 % 64 - 0x80) * 64 + (0x80 + n % 64 - 0x80) ∧
      (0xF0 + n / 262144 - 0xF0) * 262144 + (0x80 + n / 4096 % 64 - 0x80) * 4096 +
        (0x80 + n / 64 % 64 - 0x80) * 64 + (0x80 + n % 64 - 0x80) < 0x110000 then
    some ((0xF0 + n / 262144 - 0xF0) * 262144 + (0x80 + n / 4096 % 64 - 0x80) * 4096 +
      (0x80 + n / 64 % 64 - 0x80) * 64 + (0x80 + n % 64 - 0x80), rest) else none) = _
  rw [show (0xF0 + n / 262144 - 0xF0) * 262144 + (0x80 + n / 4096 % 64 - 0x80) * 4096 +
      (0x80 + n / 64 % 64 - 0x80) * 64 + (0x80 + n % 64 - 0x80) = n from by omega]
  rw [if_pos ⟨⟨by omega, by omega⟩, ⟨by omega, by omega⟩, ⟨by omega, by omega⟩, h1, h2⟩]

theorem utf8Dec_encode : ∀ cs : List Char, utf8Dec ((cs.map utf8Char).flatten) = some cs
  | [] => rfl
  | c :: cs => by
    have hv := char_toNat_lt c
    have hs := char_not_surrogate c
    simp only [List.map_cons, List.flatten_cons]
    by_cases h1 : c.toNat < 0x80
    · rw [show utf8Char c = [c.toNat] from by simp [utf8Char, h1], List.singleton_append,
        utf8Dec_step _ _ _ _ (utf8DecOne_case1 _ h1 _), utf8Dec_encode cs]
      simp
    · by_cases h2 : c.toNat < 0x800
      · rw [show utf8Char c = [0xC0 + c.toNat / 64, 0x80 + c.toNat % 64] from by
          simp [utf8Char, h1, h2]]
        simp only [List.cons_append, List.nil_append]
        rw [utf8Dec_step _ _ _ _ (utf8DecOne_case2 _ (by omega) h2 _), utf8Dec_encode cs]
        simp
      · by_cases h3 : c.toNat < 0x10000
        · rw [show utf8Char c = [0xE0 + c.toNat / 4096, 0x80 + c.toNat / 64 % 64,
              0x80 + c.toNat % 64] from by simp [utf8Char, h1, h2, h3]]
          simp only [List.cons_append, List.nil_append]
          rw [utf8Dec_step _ _ _ _ (utf8DecOne_case3 _ (by omega) h3 hs _), utf8Dec_encode cs]
          simp
        · rw [show utf8Char c = [0xF0 + c.toNat / 262144, 0x80 + c.toNat / 4096 % 64,
              0x80 + c.toNat / 64 % 64, 0x80 + c.toNat % 64] from by simp [utf8Char, h1, h2, h3]]
          simp only [List.cons_append, List.nil_append]
          rw [utf8Dec_step _ _ _ _ (utf8DecOne_case4 _ (by omega) hv _), utf8Dec_encode cs]
          simp

theorem utf8Decode_encode (s : String) : utf8Decode (strBytes s) = some s := by
  show (utf8Dec ((s.data.map utf8Char).flatten)).map String.mk = some s
  rw [utf8Dec_encode s.data]
  obtain ⟨d⟩ := s
  rfl

theorem utf8Dec_ascii : ∀ l : List Nat, (∀ x ∈ l, x < 0x80) →
    utf8Dec l = some (l.map Char.ofNat)
  | [], _ => rfl
  | b :: l, h => by
    rw [utf8Dec_step _ _ _ _ (utf8DecOne_case1 b (h b (by simp)) l),
      utf8Dec_ascii l (fun x hx => h x (by simp [hx]))]
    rfl

theorem strBytes_ascii_chars : ∀ cs : List Char, (∀ c ∈ cs, c.toNat < 0x80) →
    (cs.map utf8Char).flatten = cs.map Char.toNat
  | [], _ => rfl
  | c :: cs, h => by
    simp only [List.map_cons, List.flatten_cons]
    rw [show utf8Char c = [c.toNat] from by simp [utf8Char, h c (by simp)],
      List.singleton_append, strBytes_ascii_chars cs (fun x hx => h x (by simp [hx]))]

theorem chunksOf16_blocks_len :
    (l : List Nat) → l.length % 16 = 0 → ∀ b ∈ chunksOf 16 l, b.length = 16
  | [], _ => by intro b hb; simp [chunksOf, chunksOfAux] at hb
  | a :: t, hmod => by
    intro b hb
    rw [chunksOf_cons 16 (by omega) (a :: t) (by simp)] at hb
    rcases List.mem_cons.mp hb with rfl | hb
    · rw [List.length_take]
      simp only [List.length_cons] at hmod ⊢
      omega
    · refine chunksOf16_blocks_len ((a :: t).drop 16) ?_ b hb
      simp only [List.length_drop, List.length_cons] at hmod ⊢
      omega
termination_by l => l.length
decreasing_by simp only [List.length_drop, List.length_cons]; omega

theorem chunksOf_sub (n : Nat) (hn : 0 < n) :
    (l : List Nat) → ∀ b ∈ chunksOf n l, ∀ x ∈ b, x ∈ l
  | [] => by intro b hb; simp [chunksOf, chunksOfAux] at hb
  | a :: t => by
    intro b hb x hx
    rw [chunksOf_cons n hn (a :: t) (by simp)] at hb
    rcases List.mem_cons.mp hb with rfl | hb
    · exact List.take_subset n (a :: t) hx
    · exact List.drop_subset n (a :: t) (chunksOf_sub n hn ((a :: t).drop n) b hb x hx)
termination_by l => l.length
decreasing_by simp only [List.length_drop, List.length_cons]; omega

theorem cbcEnc_blocks_len (E : List Nat → List Nat) (hE : ∀ b, (E b).length = b.length) :
    ∀ ps prev, (∀ p ∈ ps, p.length = 16) → prev.length = 16 →
      ∀ c ∈ cbcEnc E prev ps, c.length = 16
  | [], _, _, _ => by intro c hc; simp [cbcEnc] at hc
  | p :: ps, prev, hp, hprev => by
    intro c hc
    have hEp : (E (xorBytes p prev)).length = 16 := by
      rw [hE, xorBytes_length, hp p (by simp), hprev]
      simp
    simp only [cbcEnc, List.mem_cons] at hc
    rcases hc with rfl | hc
    · exact hEp
    · exact cbcEnc_blocks_len E hE ps (E (xorBytes p prev))
        (fun x hx => hp x (by simp [hx])) hEp c hc

theorem cbcEnc_bytes (E : List Nat → List Nat) (hE256 : ∀ b, isBytes b → isBytes (E b)) :
    ∀ ps prev, (∀ p ∈ ps, isBytes p) → isBytes prev →
      ∀ c ∈ cbcEnc E prev ps, isBytes c
  | [], _, _, _ => by intro c hc; simp [cbcEnc] at hc
  | p :: ps, prev, hp, hprev => by
    intro c hc
    have hEp : isBytes (E (xorBytes p prev)) :=
      hE256 _ (xorBytes_bytes p prev (hp p (by simp)) hprev)
    simp only [cbcEnc, List.mem_cons] at hc
    rcases hc with rfl | hc
    · exact hEp
    · exact cbcEnc_bytes E hE256 ps (E (xorBytes p prev))
        (fun x hx => hp x (by simp [hx])) hEp c hc

theorem cbcDec_cbcEnc (E D : List Nat → List Nat) (hED : ∀ b, D (E b) = b)
    (hE : ∀ b, (E b).length = b.length) :
    ∀ ps prev, (∀ p ∈ ps, p.length = 16) → prev.length = 16 →
      cbcDec D prev (cbcEnc E prev ps) = ps
  | [], _, _, _ => rfl
  | p :: ps, prev, hp, hprev => by
    have hEp : (E (xorBytes p prev)).length = 16 := by
      rw [hE, xorBytes_length, hp p (by simp), hprev]
      simp
    simp only [cbcEnc, cbcDec]
    rw [hED, xorBytes_cancel p prev (by rw [hprev, hp p (by simp)])]
    rw [cbcDec_cbcEnc E D hED hE ps (E (xorBytes p prev)) (fun x hx => hp x (by simp [hx])) hEp]

/-- Core round-trip: `decrypt_vote` inverts `encrypt_vote` for any keyed block
cipher with an inverse that preserves block length and byte range, any
plaintext string, and any 16-byte IV. -/
theorem decrypt_encrypt (aesE aesD : List Nat → List Nat → List Nat) (key : List Nat)
    (hED : ∀ b, aesD key (aesE key b) = b)
    (hlen : ∀ b, (aesE key b).length = b.length)
    (hE256 : ∀ b, isBytes b → isBytes (aesE key b))
    (s : String) (iv : List Nat) (hiv : iv.length = 16) (hivB : isBytes iv) :
    decrypt_vote aesD key (encrypt_vote aesE key s iv) = some s := by
  unfold encrypt_vote decrypt_vote
  have hpadB : isBytes (padPKCS7 (strBytes s)) := padPKCS7_bytes _ (strBytes_bytes s)
  have hblocks : ∀ p ∈ chunksOf 16 (padPKCS7 (strBytes s)), p.length = 16 :=
    chunksOf16_blocks_len _ (padPKCS7_mod (strBytes s))
  have hblocksB : ∀ p ∈ chunksOf 16 (padPKCS7 (strBytes s)), isBytes p :=
    fun p hp x hx => hpadB x (chunksOf_sub 16 (by omega) _ p hp x hx)
  have hctlen : ∀ c ∈ cbcEnc (aesE key) iv (chunksOf 16 (padPKCS7 (strBytes s))), c.length = 16 :=
    cbcEnc_blocks_len (aesE key) hlen _ iv hblocks hiv
  have hctB : isBytes (cbcEnc (aesE key) iv (chunksOf 16 (padPKCS7 (strBytes s)))).flatten := by
    intro x hx
    rcases List.mem_flatten.mp hx with ⟨c, hc, hxc⟩
    exact cbcEnc_bytes (aesE key) hE256 _ iv hblocksB hivB c hc x hxc
  rw [b64Decode_b64Encode _ (by
    intro x hx
    rcases List.mem_append.mp hx with hx | hx
    · exact hivB x hx
    · exact hctB x hx)]
  rw [List.take_left' hiv, List.drop_left' hiv,
    chunksOf_blocks 16 (by omega) _ hctlen,
    cbcDec_cbcEnc (aesE key) (aesD key) hED hlen _ iv hblocks hiv,
    chunksOf_flatten 16 (by omega), unpad_pad]
  exact utf8Decode_encode s

attribute [irreducible] valid_proof hashBlock

theorem chainValidFrom_cons (prev b : Block) (rest : List Block) :
    chainValidFrom prev (b :: rest) = (linkOK prev b && chainValidFrom b rest) := by
  show (if b.previous_hash != hashBlock prev then false
        else if !(valid_proof prev.proof b.proof) then false
        else chainValidFrom b rest) = _
  unfold linkOK
  cases h1 : b.previous_hash == hashBlock prev <;>
    cases h2 : valid_proof prev.proof b.proof <;>
    simp [h1, h2, bne]

theorem chainValidFrom_append (xs : List Block) :
    ∀ (prev : Block) (ys : List Block),
      chainValidFrom prev (xs ++ ys) =
        (chainValidFrom prev xs && chainValidFrom (xs.getLastD prev) ys) := by
  induction xs with
  | nil => intro prev ys; simp [chainValidFrom]
  | cons x xs ih =>
    intro prev ys
    simp only [List.cons_append, chainValidFrom_cons, ih x ys, List.getLastD_cons,
      Bool.and_assoc]

theorem chainValidFrom_single (prev b : Block) :
    chainValidFrom prev [b] = linkOK prev b := by
  rw [chainValidFrom_cons]
  simp [chainValidFrom]

theorem is_chain_valid_snoc (c0 : Block) (cs : List Block) (b : Block) :
    is_chain_valid ((c0 :: cs) ++ [b]) =
      (is_chain_valid (c0 :: cs) && linkOK (cs.getLastD c0) b) := by
  show chainValidFrom c0 (cs ++ [b]) = _
  rw [chainValidFrom_append cs c0 [b], chainValidFrom_single]
  rfl

theorem povSearch_spec (lp : Nat) : ∀ fuel start m, povSearch lp fuel start = some m →
    valid_proof lp m = true ∧ start ≤ m ∧ ∀ k, start ≤ k → k < m → valid_proof lp k = false
  | 0, start, m, h => by simp [povSearch] at h
  | fuel + 1, start, m, h => by
    unfold povSearch at h
    by_cases hv : valid_proof lp start
    · rw [if_pos hv] at h
      obtain rfl : start = m := by simpa using h
      exact ⟨hv, le_rfl, fun k h1 h2 => by omega⟩
    · rw [if_neg hv] at h
      obtain ⟨hm, hle, hmin⟩ := povSearch_spec lp fuel (start + 1) m h
      refine ⟨hm, by omega, fun k h1 h2 => ?_⟩
      rcases Nat.eq_or_lt_of_le h1 with rfl | h1
      · simpa using hv
      · exact hmin k h1 h2

theorem povSearch_complete (lp : Nat) : ∀ fuel start b, valid_proof lp b = true →
    start ≤ b → b < start + fuel → ∃ m, povSearch lp fuel start = some m ∧ m ≤ b
  | 0, start, b, _, h1, h2 => by omega
  | fuel + 1, start, b, hb, h1, h2 => by
    by_cases hv : valid_proof lp start
    · exact ⟨start, by unfold povSearch; rw [if_pos hv], h1⟩
    · have hsb : start < b := by
        rcases Nat.eq_or_lt_of_le h1 with rfl | h1
        · exact absurd hb hv
        · exact h1
      obtain ⟨m, hm, hle⟩ := povSearch_complete lp fuel (start + 1) b hb (by omega) (by omega)
      exact ⟨m, by unfold povSearch; rw [if_neg hv]; exact hm, hle⟩


theorem new_block_seal (st : Ledger) (last : Block) (p : Nat) (ts : String)
    (hl : st.chain.getLast? = some last) :
    new_block st p (some (hashBlock last)) ts =
      some ({ chain := st.chain ++
                [{ index := st.chain.length + 1, timestamp := ts,
                   votes := st.current_transactions, proof := p,
                   previous_hash := hashBlock last }],
              current_transactions := [] },
            { index := st.chain.length + 1, timestamp := ts,
              votes := st.current_transactions, proof := p,
              previous_hash := hashBlock last }) := by
  unfold new_block
  rw [hl]
  by_cases hemp : hashBlock last = ""
  · simp only [if_pos hemp, Option.map_some']
  · simp only [if_neg hemp]

theorem applyOp_invariant (st st' : Ledger) (op : LedgerOp)
    (hne : st.chain ≠ []) (hv : is_chain_valid st.chain = true)
    (hidx : ∀ l, st.chain.getLast? = some l → l.index = st.chain.length)
    (h : applyOp st op = some st') :
    st'.chain ≠ [] ∧ is_chain_valid st'.chain = true ∧
      ∀ l, st'.chain.getLast? = some l → l.index = st'.chain.length := by
  obtain ⟨lb, hlb⟩ : ∃ lb, st.chain.getLast? = some lb := by
    cases hcl : st.chain.getLast? with
    | none => exact absurd (List.getLast?_eq_none_iff.mp hcl) hne
    | some lb => exact ⟨lb, rfl⟩
  cases op with
  | submit ev vh ts =>
    unfold applyOp new_vote_transaction at h
    rw [hlb] at h
    simp only [Option.map_some', Option.some.injEq] at h
    subst h
    exact ⟨hne, hv, hidx⟩
  | sealOp fuel ts =>
    unfold applyOp at h
    simp only [hlb] at h
    cases hpov : proof_of_vote fuel lb.proof with
    | none => rw [hpov] at h; simp at h
    | some p =>
      simp only [hpov] at h
      rw [new_block_seal st lb p ts hlb] at h
      simp only [Option.map_some', Option.some.injEq] at h
      obtain ⟨hvp, -, -⟩ := povSearch_spec lb.proof fuel 0 p hpov
      cases hchain : st.chain with
      | nil => exact absurd hchain hne
      | cons c0 cs =>
        have hlast : cs.getLastD c0 = lb := by
          have hg := List.getLastD_eq_getLast? c0 st.chain
          rw [hlb, hchain, List.getLastD_cons] at hg
          simpa using hg
        subst h
        refine ⟨by simp, ?_, ?_⟩
        · show is_chain_valid (st.chain ++ [_]) = true
          rw [hchain, is_chain_valid_snoc, hlast, Bool.and_eq_true]
          refine ⟨by rw [← hchain]; exact hv, ?_⟩
          simp [linkOK, hvp]
        · intro l hl
          show l.index = (st.chain ++ [_]).length
          rw [List.getLast?_concat] at hl
          obtain rfl := Option.some.inj hl
          simp

theorem runOps_invariant : ∀ (ops : List LedgerOp) (st st' : Ledger),
    st.chain ≠ [] → is_chain_valid st.chain = true →
    (∀ l, st.chain.getLast? = some l → l.index = st.chain.length) →
    runOps st ops = some st' →
    st'.chain ≠ [] ∧ is_chain_valid st'.chain = true ∧
      ∀ l, st'.chain.getLast? = some l → l.index = st'.chain.length
  | [], st, st', h1, h2, h3, h => by
    obtain rfl : st = st' := by simpa [runOps] using h
    exact ⟨h1, h2, h3⟩
  | op :: ops, st, st', h1, h2, h3, h => by
    unfold runOps at h
    cases hap : applyOp st op with
    | none => rw [hap] at h; simp at h
    | some st1 =>
      simp only [hap] at h
      obtain ⟨k1, k2, k3⟩ := applyOp_invariant st st1 op h1 h2 h3 hap
      exact runOps_invariant ops st1 st' k1 k2 k3 h

theorem initLedger_eq (ts : String) : initLedger ts =
    { chain := [{ index := 1, timestamp := ts, votes := [], proof := 100,
                  previous_hash := "1" }],
      current_transactions := [] } := by
  unfold initLedger new_block
  rfl

theorem reachable_invariant (st : Ledger) (h : Reachable st) :
    st.chain ≠ [] ∧ is_chain_valid st.chain = true ∧
      ∀ l, st.chain.getLast? = some l → l.index = st.chain.length := by
  obtain ⟨ts, ops, hrun⟩ := h
  refine runOps_invariant ops (initLedger ts) st ?_ ?_ ?_ hrun
  · rw [initLedger_eq]; simp
  · rw [initLedger_eq]; rfl
  · rw [initLedger_eq]
    intro l hl
    simp only [List.getLast?_singleton, Option.some.injEq] at hl
    subst hl
    rfl

theorem badlink_invalid : ∀ (xs : List Block) (prev b y : Block) (ys : List Block),
    y.previous_hash ≠ hashBlock b →
    chainValidFrom prev (xs ++ b :: y :: ys) = false
  | [], prev, b, y, ys, h => by
    simp only [List.nil_append, chainValidFrom_cons]
    have : (y.previous_hash == hashBlock b) = false := beq_eq_false_iff_ne.mpr h
    simp [linkOK, this]
  | x :: xs, prev, b, y, ys, h => by
    simp only [List.cons_append, chainValidFrom_cons]
    rw [badlink_invalid xs x b y ys h]
    simp

theorem link_of_valid : ∀ (xs : List Block) (prev b y : Block) (ys : List Block),
    chainValidFrom prev (xs ++ b :: y :: ys) = true → y.previous_hash = hashBlock b
  | [], prev, b, y, ys, h => by
    simp only [List.nil_append, chainValidFrom_cons, Bool.and_eq_true, linkOK] at h
    exact beq_iff_eq.mp h.2.1.1
  | x :: xs, prev, b, y, ys, h => by
    simp only [List.cons_append, chainValidFrom_cons, Bool.and_eq_true] at h
    exact link_of_valid xs x b y ys h.2

theorem flatten_blocks_length : ∀ bs : List (List Nat), (∀ b ∈ bs, b.length = 16) →
    bs.flatten.length = 16 * bs.length
  | [], _ => rfl
  | b :: bs, h => by
    simp only [List.flatten_cons, List.length_append, List.length_cons,
      flatten_blocks_length bs (fun x hx => h x (by simp [hx])), h b (by simp)]
    ring

theorem xor_set0 (p0 q0 : Nat) (pt qt : List Nat) (δ : Nat) (hlen : pt.length ≤ qt.length) :
    xorBytes (xorBytes (p0 :: pt) (q0 :: qt)) ((q0 ^^^ δ) :: qt) = (p0 ^^^ δ) :: pt := by
  simp only [xorBytes, List.zipWith_cons_cons]
  rw [show p0 ^^^ q0 ^^^ (q0 ^^^ δ) = p0 ^^^ δ from by
    rw [← Nat.xor_assoc, Nat.xor_cancel_right]]
  exact congrArg _ (xorBytes_cancel pt qt hlen)

theorem cbcDec_iv_changed (E D : List Nat → List Nat) (hED : ∀ b, D (E b) = b)
    (hE : ∀ b, (E b).length = b.length) (p : List Nat) (ps : List (List Nat))
    (prev prev' : List Nat) (hp : p.length = 16) (hps : ∀ q ∈ ps, q.length = 16)
    (hprev : prev.length = 16) :
    cbcDec D prev' (cbcEnc E prev (p :: ps)) = xorBytes (xorBytes p prev) prev' :: ps := by
  simp only [cbcEnc, cbcDec]
  rw [hED]
  congr 1
  exact cbcDec_cbcEnc E D hED hE ps (E (xorBytes p prev)) hps
    (by rw [hE, xorBytes_length, hp, hprev]; simp)

theorem bumpCount_map (f : String → Nat) (cand : String) :
    ∀ opts : List String, opts.Nodup → cand ∈ opts →
      bumpCount (opts.map (fun c => (c, f c))) cand =
        opts.map (fun c => (c, if c = cand then f c + 1 else f c))
  | [], _, hmem => by simp at hmem
  | c0 :: opts, hnd, hmem => by
    simp only [List.map_cons, bumpCount]
    by_cases hc : c0 = cand
    · subst hc
      rw [if_pos rfl]
      congr 1
      · rw [if_pos rfl]
      · refine (List.map_congr_left fun c hcin => ?_).symm
        rw [if_neg fun heq : c = c0 => (List.nodup_cons.mp hnd).1 (heq ▸ hcin)]
    · rw [if_neg hc]
      congr 1
      · rw [if_neg hc]
      · exact bumpCount_map f cand opts (List.nodup_cons.mp hnd).2 (by
          rcases List.mem_cons.mp hmem with rfl | h
          · exact absurd rfl hc
          · exact h)

theorem countedAs_mem (aesD : List Nat → List Nat → List Nat) (key : List Nat)
    (parse : String → Option String) (e : VoteTx) (cand : String)
    (h : countedAs aesD key parse e = some cand) : cand ∈ VOTING_OPTIONS := by
  unfold countedAs at h
  repeat' split at h
  all_goals simp_all

theorem tally_step (aesD : List Nat → List Nat → List Nat) (key : List Nat)
    (parse : String → Option String) (f : String → Nat) (t : Nat) (e : VoteTx) :
    tallyEntry aesD key parse (VOTING_OPTIONS.map (fun c => (c, f c)), t) e =
      match countedAs aesD key parse e with
      | none => (VOTING_OPTIONS.map (fun c => (c, f c)), t)
      | some cand => (bumpCount (VOTING_OPTIONS.map (fun c => (c, f c))) cand, t + 1) := by
  unfold tallyEntry countedAs
  by_cases h0 : e.encrypted_vote = ""
  · simp [h0]
  · simp only [if_neg h0, List.map_map]
    have hkeys : (VOTING_OPTIONS.map (Prod.fst ∘ fun c => (c, f c))) = VOTING_OPTIONS := by
      rfl
    rw [hkeys]
    cases decrypt_vote aesD key e.encrypted_vote with
    | none => rfl
    | some pt =>
      simp only []
      cases hp : parse pt with
      | none => rfl
      | some cand =>
        simp only []
        by_cases hcand : VOTING_OPTIONS.contains cand
        · rw [if_pos hcand, if_pos hcand]
        · rw [if_neg hcand, if_neg hcand]

theorem tally_step_none (aesD : List Nat → List Nat → List Nat) (key : List Nat)
    (parse : String → Option String) (f : String → Nat) (t : Nat) (e : VoteTx)
    (hc : countedAs aesD key parse e = none) :
    tallyEntry aesD key parse (VOTING_OPTIONS.map (fun c => (c, f c)), t) e =
      (VOTING_OPTIONS.map (fun c => (c, f c)), t) := by
  have h := tally_step aesD key parse f t e
  rw [hc] at h
  exact h

theorem tally_step_some (aesD : List Nat → List Nat → List Nat) (key : List Nat)
    (parse : String → Option String) (f : String → Nat) (t : Nat) (e : VoteTx) (cand : String)
    (hc : countedAs aesD key parse e = some cand) :
    tallyEntry aesD key parse (VOTING_OPTIONS.map (fun c => (c, f c)), t) e =
      (bumpCount (VOTING_OPTIONS.map (fun c => (c, f c))) cand, t + 1) := by
  have h := tally_step aesD key parse f t e
  rw [hc] at h
  exact h

theorem tally_foldl (aesD : List Nat → List Nat → List Nat) (key : List Nat)
    (parse : String → Option String) :
    ∀ (es : List VoteTx) (f : String → Nat) (t : Nat),
      List.foldl (tallyEntry aesD key parse) (VOTING_OPTIONS.map (fun c => (c, f c)), t) es =
        (VOTING_OPTIONS.map
          (fun c => (c, f c + (es.filterMap (countedAs aesD key parse)).count c)),
         t + (es.filterMap (countedAs aesD key parse)).length)
  | [], f, t => by simp
  | e :: es, f, t => by
    rw [List.foldl_cons]
    cases hc : countedAs aesD key parse e with
    | none =>
      rw [tally_step_none aesD key parse f t e hc, tally_foldl aesD key parse es f t]
      simp [List.filterMap_cons, hc]
    | some cand =>
      have hcand : cand ∈ VOTING_OPTIONS := countedAs_mem aesD key parse e cand hc
      rw [tally_step_some aesD key parse f t e cand hc,
        bumpCount_map f cand VOTING_OPTIONS (by decide) hcand,
        tally_foldl aesD key parse es (fun c => if c = cand then f c + 1 else f c) (t + 1)]
      simp only [List.filterMap_cons, hc]
      congr 1
      · refine List.map_congr_left fun c hcin => ?_
        have hcc : (cand :: es.filterMap (countedAs aesD key parse)).count c =
            (es.filterMap (countedAs aesD key parse)).count c +
              if cand == c then 1 else 0 := List.count_cons c cand _
        rw [hcc]
        by_cases hceq : c = cand
        · subst hceq
          simp
          omega
        · simp [hceq, Ne.symm hceq]
      · simp only [List.length_cons]
        omega

theorem cbcEnc_length_list (E : List Nat → List Nat) :
    ∀ (ps : List (List Nat)) (prev : List Nat), (cbcEnc E prev ps).length = ps.length
  | [], _ => rfl
  | p :: ps, prev => by
    simp only [cbcEnc, List.length_cons]
    rw [cbcEnc_length_list E ps (E (xorBytes p prev))]

theorem xorCipher_involutive (key : List Nat) (b : List Nat) :
    xorCipher key (xorCipher key b) = b := by
  induction b with
  | nil => rfl
  | cons x xs ih =>
    simp only [xorCipher, List.map_cons] at ih ⊢
    rw [Nat.xor_cancel_right]
    exact congrArg _ ih

theorem xorCipher_length (key b : List Nat) : (xorCipher key b).length = b.length := by
  simp [xorCipher]

theorem xorCipher_bytes (key : List Nat) (hk : key.headD 0 < 256) (b : List Nat)
    (hb : isBytes b) : isBytes (xorCipher key b) := by
  intro x hx
  simp only [xorCipher, List.mem_map] at hx
  obtain ⟨y, hy, rfl⟩ := hx
  exact Nat.xor_lt_two_pow (n := 8) (hb y hy) hk

theorem map_ofNat_toNat (cs : List Char) : cs.map (fun c => Char.ofNat c.toNat) = cs := by
  rw [List.map_congr_left fun c _ => Char.ofNat_toNat c]
  exact List.map_id' cs

/-- C4: every ledger state reachable from construction (which creates the
genesis block) by any finite sequence of Submit (`new_vote_transaction`) and
Seal (`proof_of_vote` followed by `new_block` chained on the last block's
hash, as the `vote` route performs) operations has a chain that
`is_chain_valid` accepts. -/
theorem sealed_chains_valid (ts0 : String) (ops : List LedgerOp) (st : Ledger)
    (h : runOps (initLedger ts0) ops = some st) : is_chain_valid st.chain = true := by
  refine (runOps_invariant ops (initLedger ts0) st ?_ ?_ ?_ h).2.1
  · rw [initLedger_eq]; simp
  · rw [initLedger_eq]; rfl
  · rw [initLedger_eq]
    intro l hl
    simp only [List.getLast?_singleton, Option.some.injEq] at hl
    subst hl
    rfl

/-- C5: the proof-of-vote search (`proof_of_vote`, made total with a fuel
bound) returns the smallest non-negative integer `m` with
`valid_proof lp m`, where `valid_proof` is the pure predicate that the hex
SHA-256 digest of the concatenated decimal representations starts with the
four-hex-zero difficulty target; re-running with any sufficient bound
returns the same value. -/
theorem seal_returns_smallest_proof (lp b fuel : Nat)
    (hb : valid_proof lp b = true) (hfuel : b < fuel) :
    ∃ m, proof_of_vote fuel lp = some m ∧ valid_proof lp m = true ∧
      (∀ k, k < m → valid_proof lp k = false) ∧
      ∀ fuel', b < fuel' → proof_of_vote fuel' lp = some m := by
  obtain ⟨m, hm, hmb⟩ := povSearch_complete lp fuel 0 b hb (by omega) (by omega)
  obtain ⟨hvm, -, hmin⟩ := povSearch_spec lp fuel 0 m hm
  refine ⟨m, hm, hvm, fun k hk => hmin k (by omega) hk, fun fuel' hf' => ?_⟩
  obtain ⟨m', hm', hm'b⟩ := povSearch_complete lp fuel' 0 b hb (by omega) (by omega)
  obtain ⟨hvm', -, hmin'⟩ := povSearch_spec lp fuel' 0 m' hm'
  have hmm : m = m' := by
    rcases Nat.lt_trichotomy m m' with hlt | heq | hgt
    · have hf := hmin' m (by omega) hlt
      rw [hvm] at hf
      cases hf
    · exact heq
    · have hf := hmin m' (by omega) hgt
      rw [hvm'] at hf
      cases hf
  show povSearch lp fuel' 0 = some m
  rw [hm', hmm]

/-- C8: `new_block` (the Seal step) builds the new block's votes exactly from
the current pending transaction list (same records, same order), clears that
list, and appends the block at the end of the chain, leaving every previously
appended block unchanged. -/
theorem seal_frame (st : Ledger) (proof : Nat) (ph : Option String) (ts : String)
    (st' : Ledger) (blk : Block) (h : new_block st proof ph ts = some (st', blk)) :
    blk.votes = st.current_transactions ∧
    st'.current_transactions = [] ∧
    st'.chain = st.chain ++ [blk] ∧
    st'.chain.take st.chain.length = st.chain := by
  unfold new_block at h
  split at h
  · exact absurd h (by simp)
  · simp only [Option.some.injEq, Prod.mk.injEq] at h
    obtain ⟨rfl, rfl⟩ := h
    exact ⟨rfl, rfl, rfl, List.take_left st.chain _⟩

/-- C9: on every reachable ledger state, `new_vote_transaction` (Submit)
appends exactly one record carrying the given envelope, voter handle and
submission time to the end of the pending queue, modifies no block of the
chain, and returns the current chain length plus one (the index the next
sealed block will take). -/
theorem submit_appends_record (st : Ledger) (hre : Reachable st)
    (ev vh ts : String) (st' : Ledger) (idx : Nat)
    (h : new_vote_transaction st ev vh ts = some (st', idx)) :
    st'.chain = st.chain ∧
    st'.current_transactions = st.current_transactions ++
      [{ encrypted_vote := ev, voter_hash := vh, submission_time := ts }] ∧
    idx = st.chain.length + 1 := by
  obtain ⟨hne, -, hidx⟩ := reachable_invariant st hre
  obtain ⟨lb, hlb⟩ : ∃ lb, st.chain.getLast? = some lb := by
    cases hcl : st.chain.getLast? with
    | none => exact absurd (List.getLast?_eq_none_iff.mp hcl) hne
    | some lb => exact ⟨lb, rfl⟩
  unfold new_vote_transaction at h
  rw [hlb] at h
  simp only [Option.some.injEq, Prod.mk.injEq] at h
  obtain ⟨rfl, rfl⟩ := h
  exact ⟨rfl, rfl, by rw [hidx lb hlb]⟩

/-- C6: for every plaintext whose UTF-8 encoding is at most 4096 bytes (the
result in fact holds for every length) and every 16-byte IV,
`decrypt_vote` applied to `encrypt_vote` of that plaintext under the same key
returns exactly the original plaintext, for any keyed block cipher with an
inverse that preserves block length and byte range. -/
theorem encrypt_decrypt_roundtrip (aesE aesD : List Nat → List Nat → List Nat)
    (key : List Nat) (hED : ∀ b, aesD key (aesE key b) = b)
    (hlen : ∀ b, (aesE key b).length = b.length)
    (hE256 : ∀ b, isBytes b → isBytes (aesE key b))
    (pt : String) (_hsize : (strBytes pt).length ≤ 4096)
    (iv : List Nat) (hiv : iv.length = 16) (hivB : isBytes iv) :
    decrypt_vote aesD key (encrypt_vote aesE key pt iv) = some pt :=
  decrypt_encrypt aesE aesD key hED hlen hE256 pt iv hiv hivB

/-- C3 amended: `encrypt_vote` generates no key pair and performs no key
agreement; it encrypts under the caller's fixed symmetric AES key with a
fresh 16-byte IV (not a 12-byte nonce), PKCS7-pads, and the envelope is
exactly `base64(IV ∥ ciphertext)` — its decoded form starts with the 16-byte
IV verbatim, its length is 16 plus the padded plaintext length, and it is
decrypted by the very key used to encrypt (any holder of the shared fixed
key, rather than only a tally private key). -/
theorem encrypt_envelope_structure (aesE aesD : List Nat → List Nat → List Nat)
    (key : List Nat) (hED : ∀ b, aesD key (aesE key b) = b)
    (hlen : ∀ b, (aesE key b).length = b.length)
    (hE256 : ∀ b, isBytes b → isBytes (aesE key b))
    (pt : String) (iv : List Nat) (hiv : iv.length = 16) (hivB : isBytes iv) :
    (b64Decode (encrypt_vote aesE key pt iv)).take 16 = iv ∧
    (b64Decode (encrypt_vote aesE key pt iv)).length =
      16 + ((strBytes pt).length + (16 - (strBytes pt).length % 16)) ∧
    decrypt_vote aesD key (encrypt_vote aesE key pt iv) = some pt := by
  have hpadB : isBytes (padPKCS7 (strBytes pt)) := padPKCS7_bytes _ (strBytes_bytes pt)
  have hblocks : ∀ p ∈ chunksOf 16 (padPKCS7 (strBytes pt)), p.length = 16 :=
    chunksOf16_blocks_len _ (padPKCS7_mod (strBytes pt))
  have hblocksB : ∀ p ∈ chunksOf 16 (padPKCS7 (strBytes pt)), isBytes p :=
    fun p hp x hx => hpadB x (chunksOf_sub 16 (by omega) _ p hp x hx)
  have hctlen : ∀ c ∈ cbcEnc (aesE key) iv (chunksOf 16 (padPKCS7 (strBytes pt))),
      c.length = 16 := cbcEnc_blocks_len (aesE key) hlen _ iv hblocks hiv
  have hctB : isBytes (cbcEnc (aesE key) iv (chunksOf 16 (padPKCS7 (strBytes pt)))).flatten := by
    intro x hx
    rcases List.mem_flatten.mp hx with ⟨c, hc, hxc⟩
    exact cbcEnc_bytes (aesE key) hE256 _ iv hblocksB hivB c hc x hxc
  have hdec : b64Decode (encrypt_vote aesE key pt iv) =
      iv ++ (cbcEnc (aesE key) iv (chunksOf 16 (padPKCS7 (strBytes pt)))).flatten := by
    unfold encrypt_vote
    exact b64Decode_b64Encode _ (by
      intro x hx
      rcases List.mem_append.mp hx with hx | hx
      · exact hivB x hx
      · exact hctB x hx)
  refine ⟨?_, ?_, decrypt_encrypt aesE aesD key hED hlen hE256 pt iv hiv hivB⟩
  · rw [hdec, List.take_left' hiv]
  · rw [hdec, List.length_append, hiv,
      flatten_blocks_length _ hctlen, cbcEnc_length_list]
    have hpl : (padPKCS7 (strBytes pt)).length = 16 * (chunksOf 16 (padPKCS7 (strBytes pt))).length := by
      conv_lhs => rw [← chunksOf_flatten 16 (by omega) (padPKCS7 (strBytes pt))]
      exact flatten_blocks_length _ hblocks
    rw [← hpl, padPKCS7_length]

/-- C10: the AES key is derived deterministically from a hardcoded constant
string — every `VoteCrypto` instance, however constructed, holds the
identical 32-byte key (the SHA-256 digest of that constant), and an envelope
encrypted by one instance is decrypted by any other instance using its own
key, with no distributed key material involved. -/
theorem fixed_key_shared_by_all_instances (aesE aesD : List Nat → List Nat → List Nat)
    (hED : ∀ b, aesD generate_key (aesE generate_key b) = b)
    (hlen : ∀ b, (aesE generate_key b).length = b.length)
    (hE256 : ∀ b, isBytes b → isBytes (aesE generate_key b)) :
    (∀ u v : Unit, (VoteCrypto.init u).key = (VoteCrypto.init v).key) ∧
    (VoteCrypto.init ()).key =
      sha256Bytes (strBytes "secure_voting_system_2024_usa_democracy") ∧
    (VoteCrypto.init ()).key.length = 32 ∧
    ∀ (pt : String) (iv : List Nat), iv.length = 16 → isBytes iv →
      decrypt_vote aesD (VoteCrypto.init ()).key
        (encrypt_vote aesE (VoteCrypto.init ()).key pt iv) = some pt := by
  refine ⟨fun u v => rfl, rfl, by decide, fun pt iv hiv hivB => ?_⟩
  exact decrypt_encrypt aesE aesD generate_key hED hlen hE256 pt iv hiv hivB

/-- C7: the `results` tally skips the genesis block; its total counts exactly
the records whose decryption succeeds, whose payload parses to a candidate
(the JSON extraction is the `parse` parameter), and whose candidate is in the
candidate set; each candidate's count is the number of such records naming
it; failed or malformed records are silently excluded (the tally is a total
function, never aborting); and when the total is 0 every percentage is 0,
otherwise each percentage is count/total*100 rounded to one decimal
(modelled over exact rationals with round-half-even). -/
theorem tally_spec (aesD : List Nat → List Nat → List Nat) (key : List Nat)
    (parse : String → Option String) (chain : List Block) :
    (tallyChain aesD key parse chain).2 =
      (((chain.drop 1).flatMap (fun b => b.votes)).filterMap
        (countedAs aesD key parse)).length ∧
    (tallyChain aesD key parse chain).1 =
      VOTING_OPTIONS.map (fun c =>
        (c, (((chain.drop 1).flatMap (fun b => b.votes)).filterMap
          (countedAs aesD key parse)).count c)) ∧
    (∀ g g' rest, tallyChain aesD key parse (g :: rest) =
      tallyChain aesD key parse (g' :: rest)) ∧
    ((tallyChain aesD key parse chain).2 = 0 →
      ∀ p ∈ vote_percentages (tallyChain aesD key parse chain), p.2 = 0) ∧
    (0 < (tallyChain aesD key parse chain).2 →
      vote_percentages (tallyChain aesD key parse chain) =
        (tallyChain aesD key parse chain).1.map
          (fun p => (p.1, roundTo1 ((p.2 : ℚ) / ((tallyChain aesD key parse chain).2 : ℚ) * 100)))) := by
  have hfold := tally_foldl aesD key parse ((chain.drop 1).flatMap (fun b => b.votes))
    (fun _ => 0) 0
  have htc : tallyChain aesD key parse chain =
      (VOTING_OPTIONS.map (fun c =>
        (c, (((chain.drop 1).flatMap (fun b => b.votes)).filterMap
          (countedAs aesD key parse)).count c)),
       (((chain.drop 1).flatMap (fun b => b.votes)).filterMap
         (countedAs aesD key parse)).length) := by
    unfold tallyChain
    rw [hfold]
    simp
  refine ⟨by rw [htc], by rw [htc], fun g g' rest => rfl, ?_, ?_⟩
  · intro h0 p hp
    unfold vote_percentages at hp
    rw [if_neg (by omega)] at hp
    simp only [List.mem_map] at hp
    obtain ⟨q, -, rfl⟩ := hp
    rfl
  · intro hpos
    unfold vote_percentages
    rw [if_pos hpos]

/-- C1 amended: in a valid chain, (i) replacing a non-genesis, non-final
block with one whose canonical hash differs makes `is_chain_valid` false
(this covers any single-field mutation that changes the block's hash:
index, timestamp, a vote record, proof, or previous_hash); (ii) changing the
final block's `previous_hash` to any other value makes it false; but
(iii) replacing the final block with one agreeing only on `proof` and
`previous_hash` — i.e. mutating its index, timestamp, or votes — leaves
`is_chain_valid` true, because the validator never hashes the final block. -/
theorem chain_mutation_detection :
    (∀ (pre : List Block) (bi : Block) (post : List Block) (b' : Block),
      pre ≠ [] → post ≠ [] →
      is_chain_valid (pre ++ bi :: post) = true →
      hashBlock b' ≠ hashBlock bi →
      is_chain_valid (pre ++ b' :: post) = false) ∧
    (∀ (pre : List Block) (last : Block) (v : String),
      pre ≠ [] →
      is_chain_valid (pre ++ [last]) = true →
      v ≠ last.previous_hash →
      is_chain_valid (pre ++ [{ last with previous_hash := v }]) = false) ∧
    (∀ (pre : List Block) (last b' : Block),
      is_chain_valid (pre ++ [last]) = true →
      b'.proof = last.proof → b'.previous_hash = last.previous_hash →
      is_chain_valid (pre ++ [b']) = true) := by
  refine ⟨?_, ?_, ?_⟩
  · intro pre bi post b' hpre hpost hval hhash
    cases pre with
    | nil => exact absurd rfl hpre
    | cons p0 pre' =>
      cases post with
      | nil => exact absurd rfl hpost
      | cons y post' =>
        have hlink : y.previous_hash = hashBlock bi :=
          link_of_valid pre' p0 bi y post' (by
            rw [List.cons_append] at hval
            exact hval)
        rw [List.cons_append]
        show chainValidFrom p0 (pre' ++ b' :: y :: post') = false
        exact badlink_invalid pre' p0 b' y post' (by rw [hlink]; exact fun heq => hhash heq.symm)
  · intro pre last v hpre hval hv
    cases pre with
    | nil => exact absurd rfl hpre
    | cons p0 pre' =>
      rw [is_chain_valid_snoc, Bool.and_eq_true] at hval
      have hprev : last.previous_hash = hashBlock (pre'.getLastD p0) := by
        have := hval.2
        unfold linkOK at this
        rw [Bool.and_eq_true] at this
        exact beq_iff_eq.mp this.1
      rw [is_chain_valid_snoc]
      have : linkOK (pre'.getLastD p0) { last with previous_hash := v } = false := by
        unfold linkOK
        have hne : ({ last with previous_hash := v } : Block).previous_hash ≠
            hashBlock (pre'.getLastD p0) := by
          show v ≠ _
          rw [← hprev]
          exact hv
        rw [beq_eq_false_iff_ne.mpr hne]
        rfl
      rw [this]
      simp
  · intro pre last b' hval hproof hprev
    cases pre with
    | nil => rfl
    | cons p0 pre' =>
      rw [is_chain_valid_snoc, Bool.and_eq_true] at hval
      rw [is_chain_valid_snoc, Bool.and_eq_true]
      refine ⟨hval.1, ?_⟩
      have : linkOK (pre'.getLastD p0) b' = linkOK (pre'.getLastD p0) last := by
        unfold linkOK
        rw [hprev, hproof]
      rw [this]
      exact hval.2

theorem map_ofNat_comp_toNat : ∀ cs : List Char, (cs.map Char.toNat).map Char.ofNat = cs
  | [] => rfl
  | c :: cs => by
    simp only [List.map_cons, Char.ofNat_toNat]
    exact congrArg _ (map_ofNat_comp_toNat cs)

/-- C2 amended: `decrypt_vote` performs no authenticity check — CBC mode is
malleable.  Flipping bits of the first IV byte of an envelope (xor with any
`δ` with `0 < δ < 0x80`, for an ASCII plaintext) makes `decrypt_vote`
*succeed*, silently returning a plaintext whose first character is xored
with `δ` instead of failing; only PKCS7 padding errors are ever detected. -/
theorem decrypt_iv_flip_silent (aesE aesD : List Nat → List Nat → List Nat)
    (key : List Nat) (hED : ∀ b, aesD key (aesE key b) = b)
    (hlen : ∀ b, (aesE key b).length = b.length)
    (hE256 : ∀ b, isBytes b → isBytes (aesE key b))
    (pt : String) (iv : List Nat) (δ : Nat)
    (hne : pt.data ≠ []) (hascii : isAscii pt) (hδl : δ < 0x80) (hδ0 : δ ≠ 0)
    (hiv : iv.length = 16) (hivB : isBytes iv) :
    decrypt_vote aesD key (b64Encode (((iv.headD 0 ^^^ δ) :: iv.tail) ++
        (b64Decode (encrypt_vote aesE key pt iv)).drop 16)) =
      some (String.mk (Char.ofNat ((pt.data.headD 'A').toNat ^^^ δ) :: pt.data.tail)) ∧
    String.mk (Char.ofNat ((pt.data.headD 'A').toNat ^^^ δ) :: pt.data.tail) ≠ pt := by
  obtain ⟨i0, ivt, rfl⟩ : ∃ i0 ivt, iv = i0 :: ivt := by
    cases iv with
    | nil => simp at hiv
    | cons a t => exact ⟨a, t, rfl⟩
  cases hdata : pt.data with
  | nil => exact absurd hdata hne
  | cons c0 cs =>
  have hc0 : c0.toNat < 0x80 := hascii c0 (by rw [hdata]; simp)
  have hcs : ∀ c ∈ cs, c.toNat < 0x80 := fun c hc => hascii c (by rw [hdata]; simp [hc])
  have hdb : strBytes pt = c0.toNat :: cs.map Char.toNat := by
    unfold strBytes
    rw [hdata, strBytes_ascii_chars (c0 :: cs) (by
      intro c hc
      rcases List.mem_cons.mp hc with rfl | hc
      · exact hc0
      · exact hcs c hc), List.map_cons]
  have hi0 : i0 < 256 := hivB i0 (by simp)
  have hivtB : isBytes ivt := fun x hx => hivB x (by simp [hx])
  have hivt : ivt.length = 15 := by simp at hiv; omega
  have hivB' : isBytes ((i0 ^^^ δ) :: ivt) := by
    intro x hx
    rcases List.mem_cons.mp hx with rfl | hx
    · exact Nat.xor_lt_two_pow (n := 8) hi0 (by omega)
    · exact hivtB x hx
  have hiv' : ((i0 ^^^ δ) :: ivt).length = 16 := by simp [hivt]
  -- structure of the padded plaintext
  have hpadded : padPKCS7 (strBytes pt) =
      c0.toNat :: (cs.map Char.toNat ++
        List.replicate (16 - (cs.map Char.toNat).length.succ % 16)
          (16 - (cs.map Char.toNat).length.succ % 16)) := by
    rw [hdb]
    simp [padPKCS7, List.cons_append, Nat.succ_eq_add_one]
  have hpadne : padPKCS7 (strBytes pt) ≠ [] := by rw [hpadded]; simp
  have hpadB : isBytes (padPKCS7 (strBytes pt)) := padPKCS7_bytes _ (strBytes_bytes pt)
  have hblocks : ∀ p ∈ chunksOf 16 (padPKCS7 (strBytes pt)), p.length = 16 :=
    chunksOf16_blocks_len _ (padPKCS7_mod (strBytes pt))
  have hblocksB : ∀ p ∈ chunksOf 16 (padPKCS7 (strBytes pt)), isBytes p :=
    fun p hp x hx => hpadB x (chunksOf_sub 16 (by omega) _ p hp x hx)
  have hctlen : ∀ c ∈ cbcEnc (aesE key) (i0 :: ivt) (chunksOf 16 (padPKCS7 (strBytes pt))),
      c.length = 16 := cbcEnc_blocks_len (aesE key) hlen _ _ hblocks hiv
  have hctB : isBytes
      (cbcEnc (aesE key) (i0 :: ivt) (chunksOf 16 (padPKCS7 (strBytes pt)))).flatten := by
    intro x hx
    rcases List.mem_flatten.mp hx with ⟨c, hc, hxc⟩
    exact cbcEnc_bytes (aesE key) hE256 _ _ hblocksB hivB c hc x hxc
  have henv : b64Decode (encrypt_vote aesE key pt (i0 :: ivt)) =
      (i0 :: ivt) ++
        (cbcEnc (aesE key) (i0 :: ivt) (chunksOf 16 (padPKCS7 (strBytes pt)))).flatten := by
    unfold encrypt_vote
    exact b64Decode_b64Encode _ (by
      intro x hx
      rcases List.mem_append.mp hx with hx | hx
      · exact hivB x hx
      · exact hctB x hx)
  -- decompose the block list
  have hchunks : chunksOf 16 (padPKCS7 (strBytes pt)) =
      (padPKCS7 (strBytes pt)).take 16 :: chunksOf 16 ((padPKCS7 (strBytes pt)).drop 16) :=
    chunksOf_cons 16 (by omega) _ hpadne
  have hb0len : ((padPKCS7 (strBytes pt)).take 16).length = 16 :=
    hblocks _ (by rw [hchunks]; simp)
  have hbslen : ∀ q ∈ chunksOf 16 ((padPKCS7 (strBytes pt)).drop 16), q.length = 16 :=
    fun q hq => hblocks q (by rw [hchunks]; simp [hq])
  have hb0 : (padPKCS7 (strBytes pt)).take 16 =
      c0.toNat :: (cs.map Char.toNat ++
        List.replicate (16 - (cs.map Char.toNat).length.succ % 16)
          (16 - (cs.map Char.toNat).length.succ % 16)).take 15 := by
    rw [hpadded]
    rfl
  have ht0len : ((cs.map Char.toNat ++
      List.replicate (16 - (cs.map Char.toNat).length.succ % 16)
        (16 - (cs.map Char.toNat).length.succ % 16)).take 15).length ≤ 15 := by
    rw [List.length_take]
    omega
  have htail : ((cs.map Char.toNat ++
      List.replicate (16 - (cs.map Char.toNat).length.succ % 16)
        (16 - (cs.map Char.toNat).length.succ % 16)).take 15) ++
      (chunksOf 16 ((padPKCS7 (strBytes pt)).drop 16)).flatten =
      cs.map Char.toNat ++
        List.replicate (16 - (cs.map Char.toNat).length.succ % 16)
          (16 - (cs.map Char.toNat).length.succ % 16) := by
    have hfl : ((padPKCS7 (strBytes pt)).take 16) ++
        (chunksOf 16 ((padPKCS7 (strBytes pt)).drop 16)).flatten =
        padPKCS7 (strBytes pt) := by
      have := chunksOf_flatten 16 (by omega) (padPKCS7 (strBytes pt))
      rw [hchunks] at this
      simpa using this
    rw [hb0] at hfl
    nth_rewrite 2 [hpadded] at hfl
    rw [List.cons_append] at hfl
    exact (List.cons.injEq _ _ _ _ ▸ hfl).2
  -- the tampered decryption, block level
  have hdecblocks : cbcDec (aesD key) ((i0 ^^^ δ) :: ivt)
      (cbcEnc (aesE key) (i0 :: ivt) (chunksOf 16 (padPKCS7 (strBytes pt)))) =
      ((c0.toNat ^^^ δ) :: (cs.map Char.toNat ++
        List.replicate (16 - (cs.map Char.toNat).length.succ % 16)
          (16 - (cs.map Char.toNat).length.succ % 16)).take 15) ::
        chunksOf 16 ((padPKCS7 (strBytes pt)).drop 16) := by
    rw [hchunks, cbcDec_iv_changed (aesE key) (aesD key) hED hlen _ _ _ _ hb0len hbslen hiv,
      hb0, xor_set0 c0.toNat i0 _ ivt δ (by rw [hivt]; exact ht0len)]
  refine ⟨?_, ?_⟩
  · unfold decrypt_vote
    rw [henv, List.drop_left' hiv, b64Decode_b64Encode _ (by
        intro x hx
        rcases List.mem_append.mp hx with hx | hx
        · simp only [List.headD_cons, List.tail_cons] at hx
          exact hivB' x hx
        · exact hctB x hx)]
    simp only [List.headD_cons, List.tail_cons]
    rw [List.take_left' hiv', List.drop_left' hiv',
      chunksOf_blocks 16 (by omega) _ hctlen, hdecblocks, List.flatten_cons,
      List.cons_append, htail, ← List.cons_append,
      unpad_append_replicate _ _ (by omega) (by omega) (by
        simp only [List.length_cons, List.length_map]
        omega)]
    show utf8Decode ((c0.toNat ^^^ δ) :: cs.map Char.toNat) = _
    unfold utf8Decode
    rw [utf8Dec_ascii _ (by
      intro x hx
      rcases List.mem_cons.mp hx with rfl | hx
      · exact Nat.xor_lt_two_pow (n := 7) hc0 hδl
      · rcases List.mem_map.mp hx with ⟨c, hc, rfl⟩
        exact hcs c hc)]
    simp only [List.map_cons, map_ofNat_comp_toNat, Option.map_some']
  · intro heq
    have hdataeq : Char.ofNat (((c0 :: cs).headD 'A').toNat ^^^ δ) :: (c0 :: cs).tail =
        c0 :: cs := by
      have hq := congrArg String.data heq
      rw [hdata] at hq
      exact hq
    simp only [List.headD_cons, List.tail_cons, List.cons.injEq] at hdataeq
    have hhead : Char.ofNat (c0.toNat ^^^ δ) = c0 := hdataeq.1
    have hvalid : (c0.toNat ^^^ δ).isValidChar :=
      Or.inl (by
        have := Nat.xor_lt_two_pow (n := 7) hc0 hδl
        omega)
    have htn : c0.toNat ^^^ δ = c0.toNat := by
      have := congrArg Char.toNat hhead
      rwa [toNat_ofNat_valid _ hvalid] at this
    have : δ = 0 := by
      have h2 := congrArg (fun z => z ^^^ c0.toNat) htn
      simp only at h2
      rw [Nat.xor_comm c0.toNat δ, Nat.xor_cancel_right] at h2
      rw [h2]
      exact Nat.xor_self c0.toNat
    exact hδ0 this

set_option allowUnsafeReducibility true in
attribute [semireducible] valid_proof hashBlock

set_option maxRecDepth 20000 in
/-- Counterexample to C1 as stated: mutating the timestamp of the final block
of a concrete valid two-block chain leaves `is_chain_valid` true, because the
validation loop never hashes the last block of the chain. -/
theorem final_block_mutation_undetected :
    is_chain_valid [genesisB, blockB2] = true ∧
    is_chain_valid [genesisB, { blockB2 with timestamp := "9999999999.0" }] = true ∧
    ({ blockB2 with timestamp := "9999999999.0" } : Block) ≠ blockB2 := by
  refine ⟨by decide, by decide, by decide⟩

set_option maxRecDepth 20000 in
/-- Counterexample to C2 as stated: flipping the low bit of the first IV byte
of a concrete envelope does not make decryption fail; `decrypt_vote` returns
`some "@B"`, a silently altered plaintext of the vote `"AB"`. -/
theorem decrypt_tampered_envelope :
    decrypt_vote xorCipher [0xAA]
      (b64Encode ((1 :: (List.range 16).tail) ++
        (b64Decode (encrypt_vote xorCipher [0xAA] "AB" (List.range 16))).drop 16)) =
      some "@B" ∧
    (1 :: (List.range 16).tail) ≠ List.range 16 ∧
    ("@B" : String) ≠ "AB" := by
  refine ⟨by decide, by decide, by decide⟩

set_option maxRecDepth 20000 in
/-- Counterexample to C3 as stated: for a concrete envelope the base64-decoded
payload is exactly the 16-byte IV followed by one ciphertext block — 32 bytes
in total, so it carries neither an ephemeral public key nor a 12-byte nonce —
and the very key that encrypted it decrypts it. -/
theorem symmetric_envelope_counterexample :
    (b64Decode (encrypt_vote xorCipher [0xAA] "X" (List.range 16))).take 16 =
      List.range 16 ∧
    (b64Decode (encrypt_vote xorCipher [0xAA] "X" (List.range 16))).length = 32 ∧
    (List.range 16).length ≠ 12 ∧
    decrypt_vote xorCipher [0xAA] (encrypt_vote xorCipher [0xAA] "X" (List.range 16)) =
      some "X" := by
  refine ⟨by decide, by decide, by decide, by decide⟩

set_option maxRecDepth 20000 in
/-- Witness for C1 (amended) on concrete chains: a hash-changing mutation of a
middle block invalidates the chain, a final-block `previous_hash` mutation
invalidates it, and a final-block timestamp mutation goes undetected. -/
theorem chain_mutation_detection_witness :
    is_chain_valid ([genesisB] ++ { blockB2 with timestamp := "8888888888.0" } :: [blockB3]) =
      false ∧
    is_chain_valid ([genesisB] ++ [{ blockB2 with previous_hash := "00" }]) = false ∧
    is_chain_valid ([genesisB] ++ [{ blockB2 with timestamp := "7777777777.0" }]) = true :=
  ⟨chain_mutation_detection.1 [genesisB] blockB2 [blockB3]
      { blockB2 with timestamp := "8888888888.0" } (by decide) (by decide) (by decide)
      (by decide),
   chain_mutation_detection.2.1 [genesisB] blockB2 "00" (by decide) (by decide) (by decide),
   chain_mutation_detection.2.2 [genesisB] blockB2 { blockB2 with timestamp := "7777777777.0" }
      (by decide) (by decide) (by decide)⟩

set_option maxRecDepth 20000 in
/-- Witness for C2 (amended) with the concrete xor block cipher: xoring the
first IV byte of a concrete envelope with `1` yields a successful decryption
whose plaintext differs from the original in its first character. -/
theorem decrypt_iv_flip_silent_witness :
    decrypt_vote xorCipher [0xAA]
      (b64Encode ((((List.range 16).headD 0 ^^^ 1) :: (List.range 16).tail) ++
        (b64Decode (encrypt_vote xorCipher [0xAA] "AB" (List.range 16))).drop 16)) =
      some (String.mk (Char.ofNat ((("AB" : String).data.headD 'A').toNat ^^^ 1) ::
        ("AB" : String).data.tail)) ∧
    String.mk (Char.ofNat ((("AB" : String).data.headD 'A').toNat ^^^ 1) ::
      ("AB" : String).data.tail) ≠ "AB" :=
  decrypt_iv_flip_silent xorCipher xorCipher [0xAA]
    (fun b => xorCipher_involutive [0xAA] b)
    (fun b => xorCipher_length [0xAA] b)
    (fun b hb => xorCipher_bytes [0xAA] (by decide) b hb)
    "AB" (List.range 16) 1 (by decide) (by decide) (by decide) (by decide)
    (by decide) (by decide)

set_option maxRecDepth 20000 in
/-- Witness for C3 (amended) with the concrete xor block cipher: the decoded
envelope starts with the given IV, has the IV-plus-padded-plaintext length,
and is decrypted by the encrypting key. -/
theorem encrypt_envelope_structure_witness :
    (b64Decode (encrypt_vote xorCipher [0xAA] "hi" (List.range 16))).take 16 =
      List.range 16 ∧
    (b64Decode (encrypt_vote xorCipher [0xAA] "hi" (List.range 16))).length =
      16 + ((strBytes "hi").length + (16 - (strBytes "hi").length % 16)) ∧
    decrypt_vote xorCipher [0xAA] (encrypt_vote xorCipher [0xAA] "hi" (List.range 16)) =
      some "hi" :=
  encrypt_envelope_structure xorCipher xorCipher [0xAA]
    (fun b => xorCipher_involutive [0xAA] b)
    (fun b => xorCipher_length [0xAA] b)
    (fun b hb => xorCipher_bytes [0xAA] (by decide) b hb)
    "hi" (List.range 16) (by decide) (by decide)

set_option maxRecDepth 20000 in
/-- Witness for C4 at a concrete run: submitting one transaction to a fresh
ledger yields a state whose chain passes `is_chain_valid`. -/
theorem sealed_chains_valid_witness :
    is_chain_valid
      ({ chain := [genesisB],
         current_transactions := [{ encrypted_vote := "QUJD", voter_hash := "ab12cd34",
                                    submission_time := "1700000000.5" }] } : Ledger).chain = true :=
  sealed_chains_valid "1700000000.0" [LedgerOp.submit "QUJD" "ab12cd34" "1700000000.5"]
    { chain := [genesisB],
      current_transactions := [{ encrypted_vote := "QUJD", voter_hash := "ab12cd34",
                                 submission_time := "1700000000.5" }] } (by decide)

set_option maxRecDepth 20000 in
/-- Witness for C5 at the genesis proof `100`: `35293` is a valid proof below
the fuel bound `35294`, so the search returns the least valid proof. -/
theorem seal_returns_smallest_proof_witness :
    valid_proof 100 35293 = true ∧ 35293 < 35294 ∧
    ∃ m, proof_of_vote 35294 100 = some m ∧ valid_proof 100 m = true ∧
      (∀ k, k < m → valid_proof 100 k = false) ∧
      ∀ fuel', 35293 < fuel' → proof_of_vote fuel' 100 = some m :=
  ⟨by decide, by decide, seal_returns_smallest_proof 100 35293 35294 (by decide) (by decide)⟩

set_option maxRecDepth 20000 in
/-- Witness for C6 with the concrete xor block cipher: decrypting the
encryption of a concrete plaintext returns it unchanged. -/
theorem encrypt_decrypt_roundtrip_witness :
    decrypt_vote xorCipher [0xAA]
      (encrypt_vote xorCipher [0xAA] "hello world" (List.range 16)) = some "hello world" :=
  encrypt_decrypt_roundtrip xorCipher xorCipher [0xAA]
    (fun b => xorCipher_involutive [0xAA] b)
    (fun b => xorCipher_length [0xAA] b)
    (fun b hb => xorCipher_bytes [0xAA] (by decide) b hb)
    "hello world" (by decide) (List.range 16) (by decide) (by decide)

set_option maxRecDepth 20000 in
/-- Witness for C7 on a concrete chain (one countable Abstain vote, one empty
ciphertext, one corrupt envelope): the total is positive and each percentage
equals the rounded count/total ratio. -/
theorem tally_spec_witness :
    0 < (tallyChain xorCipher [0xAA] Option.some tallyWitnessChain).2 ∧
    vote_percentages (tallyChain xorCipher [0xAA] Option.some tallyWitnessChain) =
      (tallyChain xorCipher [0xAA] Option.some tallyWitnessChain).1.map
        (fun p => (p.1, roundTo1 ((p.2 : ℚ) /
          ((tallyChain xorCipher [0xAA] Option.some tallyWitnessChain).2 : ℚ) * 100))) :=
  ⟨by decide,
   (tally_spec xorCipher [0xAA] Option.some tallyWitnessChain).2.2.2.2 (by decide)⟩

/-- Witness for C8 on a concrete seal: the new block carries exactly the
pending records, the queue is cleared and the chain is extended in place. -/
theorem seal_frame_witness :
    blkC8.votes = stC8.current_transactions ∧
    stC8sealed.current_transactions = [] ∧
    stC8sealed.chain = stC8.chain ++ [blkC8] ∧
    stC8sealed.chain.take stC8.chain.length = stC8.chain :=
  seal_frame stC8 7 (some "h") "t2" stC8sealed blkC8 (by decide)

/-- Witness for C9 on a concrete reachable state: the submitted record is
appended to the queue, the chain is untouched and the returned index is the
chain length plus one. -/
theorem submit_appends_record_witness :
    stC9next.chain = stC9.chain ∧
    stC9next.current_transactions = stC9.current_transactions ++
      [{ encrypted_vote := "env", voter_hash := "vh", submission_time := "t1" }] ∧
    2 = stC9.chain.length + 1 :=
  submit_appends_record stC9 ⟨"1700000000.0", [], by decide⟩ "env" "vh" "t1" stC9next 2
    (by decide)

set_option maxRecDepth 20000 in
/-- Witness for C10 with the concrete xor block cipher: a ballot encrypted
under one instance's key is decrypted by another instance's key, since every
instance holds the same fixed key. -/
theorem fixed_key_shared_by_all_instances_witness :
    decrypt_vote xorCipher (VoteCrypto.init ()).key
      (encrypt_vote xorCipher (VoteCrypto.init ()).key "ballot" (List.range 16)) =
      some "ballot" :=
  (fixed_key_shared_by_all_instances xorCipher xorCipher
    (fun b => xorCipher_involutive generate_key b)
    (fun b => xorCipher_length generate_key b)
    (fun b hb => xorCipher_bytes generate_key (by decide) b hb)).2.2.2
    "ballot" (List.range 16) (by decide) (by decide)
